import Mathlib

/-!
Verification of the decision-tree visualizer's evaluation and replay engine.

The definitions below are shallow embeddings of the TypeScript source:
  - `src/types.ts`                 → `NodeType`, `TreeNode`, `CalculationLog`
  - `src/utils/treeUtils.ts`       → `findNode`, `addNodeToTree`,
                                     `flattenTreePostOrder`, `calculateNodeEMV`,
                                     `markOptimalPath`
  - `src/index.tsx` (App)          → `clearValuesReset` (resetCalculation),
                                     `clearValuesAuto`, `autoSolveNode`,
                                     `requestAutoModel` (handleSolve(false)),
                                     `stepCalcNode` (stepCalculate),
                                     `requestStepModel` (handleSolve(true))
  - `src/components/Controls.tsx`  → `showsAddChildButtons`
  - `src/components/TreeVisualizer.tsx` → `calculateLayout`

Numbers are modelled as exact rationals (`ℚ`); all claims under scrutiny are
about exact comparisons, orderings and tolerances that the source expresses
with ordinary arithmetic.  JavaScript `x ?? 0` on an optional number is
`Option.getD x 0`; for a Terminal node's payout the source writes
`node.value || 0`, which agrees with `Option.getD` on every rational since
`0 || 0` is `0` either way.
-/

namespace DTV

/-- `NodeType` from `src/types.ts`: decision (square), chance (circle),
terminal (triangle). -/
inductive NodeType : Type where
  | decision
  | chance
  | terminal
deriving DecidableEq, Repr

/-- The scalar fields of a `TreeNode` (`src/types.ts`).  The recursive
`children` list lives in `TreeNode` below.  `value`, `probability`,
`calculatedValue`, `isOptimal`, `collapsed`, `notes` are optional fields in
the source and are modelled with `Option`. -/
structure NodeData : Type where
  id : String
  type : NodeType
  label : String
  value : Option ℚ
  probability : Option ℚ
  collapsed : Option Bool
  calculatedValue : Option ℚ
  isOptimal : Option Bool
  notes : Option String
deriving DecidableEq, Repr

/-- `TreeNode` from `src/types.ts`: scalar data plus an ordered list of
children. -/
inductive TreeNode : Type where
  | node (data : NodeData) (children : List TreeNode)

namespace TreeNode

def data : TreeNode → NodeData
  | node d _ => d

def children : TreeNode → List TreeNode
  | node _ cs => cs

def id (n : TreeNode) : String := n.data.id

def type (n : TreeNode) : NodeType := n.data.type

def label (n : TreeNode) : String := n.data.label

def value (n : TreeNode) : Option ℚ := n.data.value

def probability (n : TreeNode) : Option ℚ := n.data.probability

def calculatedValue (n : TreeNode) : Option ℚ := n.data.calculatedValue

def isOptimal (n : TreeNode) : Option Bool := n.data.isOptimal

end TreeNode

open TreeNode (node)

/-- Replace a node's `calculatedValue` field (the effect of the source's
`{ ...node, calculatedValue: v }`). -/
def setCV (v : Option ℚ) : TreeNode → TreeNode
  | node d cs => node { d with calculatedValue := v } cs

/-- Replace a node's `isOptimal` field (the effect of the source's
`{ ...child, isOptimal: b }`). -/
def setIsOptimal (b : Option Bool) : TreeNode → TreeNode
  | node d cs => node { d with isOptimal := b } cs

/-- `calculateNodeEMV` from `src/utils/treeUtils.ts` (lines 128-148).
Terminal → `node.value || 0`; no children → `0`; Decision →
`Math.max(...children.map(c => c.calculatedValue ?? 0))`; Chance →
`children.reduce((sum, c) => sum + (c.calculatedValue ?? 0) * (c.probability ?? 0), 0)`.
`Math.max` over the non-empty spread is the left fold of `max` over the
mapped list. -/
def calculateNodeEMV (n : TreeNode) : ℚ :=
  if n.type = NodeType.terminal then n.value.getD 0
  else if n.children.isEmpty then 0
  else if n.type = NodeType.decision then
    match n.children.map (fun c => c.calculatedValue.getD 0) with
    | [] => 0
    | v :: vs => vs.foldl max v
  else if n.type = NodeType.chance then
    n.children.foldl (fun sum c => sum + c.calculatedValue.getD 0 * c.probability.getD 0) 0
  else 0

/-- The node-value computation exactly as claim C1 words it: Terminal → its
value, defaulting to 0 when undefined; Decision → the maximum of the
children's `calculatedValue` (an undefined `calculatedValue` treated as 0),
and 0 with no children; Chance → the sum over the children of
`calculatedValue` times `probability`, a missing `calculatedValue` or
`probability` treated as 0. -/
def emvClaimSpec (n : TreeNode) : ℚ :=
  match n.type with
  | NodeType.terminal => n.value.getD 0
  | NodeType.decision =>
      if n.children.isEmpty then 0
      else ((n.children.map (fun c => c.calculatedValue.getD 0)).maximum).unbot' 0
  | NodeType.chance =>
      (n.children.map (fun c => c.calculatedValue.getD 0 * c.probability.getD 0)).sum

mutual

/-- `flattenTreePostOrder` from `src/utils/treeUtils.ts` (118-125): the
children's flattenings concatenated in order, then the node itself. -/
def flattenTreePostOrder : TreeNode → List TreeNode
  | node d cs => flattenList cs ++ [node d cs]

def flattenList : List TreeNode → List TreeNode
  | [] => []
  | c :: cs => flattenTreePostOrder c ++ flattenList cs

end

mutual

/-- `findNode` from `src/utils/treeUtils.ts` (65-72): depth-first search,
the node itself first, then the children in order. -/
def findNode : TreeNode → String → Option TreeNode
  | node d cs, i => if d.id = i then some (node d cs) else findList cs i

def findList : List TreeNode → String → Option TreeNode
  | [], _ => none
  | c :: cs, i =>
      match findNode c i with
      | some r => some r
      | none => findList cs i

end

/-- Type-dependent default label of a freshly added node
(`src/utils/treeUtils.ts` line 91). -/
def defaultLabel : NodeType → String
  | NodeType.terminal => "结果"
  | NodeType.chance => "不确定事件"
  | NodeType.decision => "决策"

/-- The fresh node built by `addNodeToTree` (`src/utils/treeUtils.ts` 88-95):
value 0, probability 0.5, no children, no derived fields.  The source draws
the fresh id from `generateId()` (a random string); here it is passed in
explicitly as `newId`. -/
def newChildNode (newId : String) (ty : NodeType) : TreeNode :=
  node { id := newId, type := ty, label := defaultLabel ty, value := some 0,
         probability := some (1/2), collapsed := none, calculatedValue := none,
         isOptimal := none, notes := none } []

mutual

/-- `addNodeToTree` from `src/utils/treeUtils.ts` (87-105): if the node's id
matches `parentId` the fresh node is appended to its children (no recursion
below the match); otherwise recurse into every child.  There is no check of
the matched parent's type. -/
def addNodeToTree (newId : String) : TreeNode → String → NodeType → TreeNode
  | node d cs, parentId, ty =>
    if d.id = parentId then node d (cs ++ [newChildNode newId ty])
    else node d (addList newId cs parentId ty)

def addList (newId : String) : List TreeNode → String → NodeType → List TreeNode
  | [], _, _ => []
  | c :: cs, parentId, ty =>
      addNodeToTree newId c parentId ty :: addList newId cs parentId ty

end

/-- The add-child section of `src/components/Controls.tsx` (118-143): the
three add-child buttons exist only when the selected node's type is not
Terminal (`selectedNode.type !== NodeType.TERMINAL`). -/
def showsAddChildButtons (ty : NodeType) : Bool :=
  ty ≠ NodeType.terminal

mutual

/-- The `clearValues` closure of `resetCalculation` in the App component
(`src/unnamed/part_001` lines 77-82): clears `calculatedValue` and
`isOptimal` on every node. -/
def clearValuesReset : TreeNode → TreeNode
  | node d cs =>
      node { d with calculatedValue := none, isOptimal := none }
        (clearResetList cs)

def clearResetList : List TreeNode → List TreeNode
  | [] => []
  | c :: cs => clearValuesReset c :: clearResetList cs

end

mutual

/-- The `clearValues` closure inside `handleSolve`'s auto branch
(`src/unnamed/part_001` lines 150-156): clears `calculatedValue` and
`isOptimal` on every node whose type is not Terminal; Terminal nodes keep
both fields; the recursion still visits all children. -/
def clearValuesAuto : TreeNode → TreeNode
  | node d cs =>
      if d.type = NodeType.terminal then node d (clearAutoList cs)
      else
        node { d with calculatedValue := none, isOptimal := none }
          (clearAutoList cs)

def clearAutoList : List TreeNode → List TreeNode
  | [] => []
  | c :: cs => clearValuesAuto c :: clearAutoList cs

end

/-- The tolerance `0.0001` used by `markOptimalPath`
(`src/utils/treeUtils.ts` line 184). -/
def optTolerance : ℚ := 1 / 10000

mutual

/-- `markOptimalPath` from `src/utils/treeUtils.ts` (170-195): Terminal or
childless nodes are returned as-is; otherwise the children are marked
recursively, and when the node is a Decision with a defined
`calculatedValue` each child's `isOptimal` is set to whether
`|(child.calculatedValue ?? 0) - maxVal| < 0.0001`. -/
def markOptimalPath : TreeNode → TreeNode
  | node d cs =>
    if d.type = NodeType.terminal ∨ cs.isEmpty then node d cs
    else
      let cs' := markList cs
      if d.type = NodeType.decision then
        match d.calculatedValue with
        | some maxVal =>
            node d (cs'.map (fun c =>
              setIsOptimal
                (some (decide (abs (c.calculatedValue.getD 0 - maxVal) < optTolerance))) c))
        | none => node d cs'
      else node d cs'

def markList : List TreeNode → List TreeNode
  | [] => []
  | c :: cs => markOptimalPath c :: markList cs

end

/-- `CalculationLog` from `src/types.ts`, specialised for verification.  A
source entry carries `id` (a fresh random string from `generateId()`),
`nodeLabel`, `nodeType`, `formula` (a display string), `result` and
`timestamp` (wall clock).  The random `id`, the wall-clock `timestamp` and
the rendered `formula` string are not examined by any claim; in their place
the model records `nodeId`, the id of the node whose evaluation produced
the entry — the correspondence the fresh id establishes operationally. -/
structure CalculationLog : Type where
  nodeId : String
  nodeLabel : String
  nodeType : NodeType
  result : ℚ
deriving DecidableEq, Repr

/-- The App's `calculationMode` (`src/unnamed/part_001` line 23):
`edit` | `step` | `auto`; `auto` is the Solved/"计算完成" display state. -/
inductive CalcMode : Type where
  | edit
  | step
  | auto
deriving DecidableEq, Repr

mutual

/-- The auto-replay loop of `handleSolve(false)` (`src/unnamed/part_001`
lines 165-201) in functional form.  The source iterates over
`flattenTreePostOrder(workingRoot)` mutating nodes in place; since every
child precedes its parent in post-order, that equals this recursion: solve
all children first, then the node.  A Terminal node gets
`calculatedValue := value` with no pacing delay and no log entry; a
non-Terminal node whose `calculatedValue` is already defined is skipped;
any other node waits one pacing delay (counted by the third component),
gets `calculatedValue := calculateNodeEMV` and appends one log entry. -/
def autoSolveNode : TreeNode → TreeNode × List CalculationLog × Nat
  | node d cs =>
    let r := autoSolveList cs
    if d.type = NodeType.terminal then
      (node { d with calculatedValue := d.value } r.1, r.2.1, r.2.2)
    else if d.calculatedValue.isSome then (node d r.1, r.2.1, r.2.2)
    else
      let n' := node d r.1
      let v := calculateNodeEMV n'
      (node { d with calculatedValue := some v } r.1,
        r.2.1 ++ [⟨d.id, d.label, d.type, v⟩], r.2.2 + 1)

def autoSolveList : List TreeNode → List TreeNode × List CalculationLog × Nat
  | [] => ([], [], 0)
  | c :: cs =>
      let r1 := autoSolveNode c
      let r2 := autoSolveList cs
      (r1.1 :: r2.1, r1.2.1 ++ r2.2.1, r1.2.2 + r2.2.2)

end

/-- `handleSolve(false)` (`src/unnamed/part_001` 140-208) on a run that is
not cancelled, with pacing delays abstracted into a count: entered from
mode `edit` or from mode `auto` (Solved) the tree is first cleared with
`clearValuesAuto` and the log emptied (lines 157-162); entered from mode
`step` the tree and log are kept (`autoPrepare`); then the post-order
replay `autoSolveNode` runs and finally `markOptimalPath` is applied (line
206).  Returns (final tree, full log, number of pacing delays). -/
def autoPrepare (mode : CalcMode) (root : TreeNode)
    (logs : List CalculationLog) : TreeNode × List CalculationLog :=
  if mode = CalcMode.edit ∨ mode = CalcMode.auto then (clearValuesAuto root, [])
  else (root, logs)

def requestAutoModel (mode : CalcMode) (root : TreeNode)
    (logs : List CalculationLog) : TreeNode × List CalculationLog × Nat :=
  let prep := autoPrepare mode root logs
  let r := autoSolveNode prep.1
  (markOptimalPath r.1, prep.2 ++ r.2.1, r.2.2)

mutual

/-- `stepCalculate` inside `handleSolve(true)` (`src/unnamed/part_001`
100-129).  The Boolean argument is the `foundNext` flag threaded through
the depth-first walk: a node with a defined `calculatedValue` is returned
unchanged (its subtree is not revisited); a Terminal node gets
`calculatedValue := value` and no log entry; otherwise the children are
processed in order and, when they all end up with a defined
`calculatedValue` and no node has been solved yet in this pass, this node
is solved and one log entry appended. -/
def stepCalcNode : TreeNode → Bool → TreeNode × Bool × List CalculationLog
  | node d cs, found =>
    if d.calculatedValue.isSome then (node d cs, found, [])
    else if d.type = NodeType.terminal then
      (node { d with calculatedValue := d.value } cs, found, [])
    else
      let r := stepCalcList cs found
      if (r.1.all fun c => c.calculatedValue.isSome) && !r.2.1 then
        let n' := node d r.1
        let v := calculateNodeEMV n'
        (node { d with calculatedValue := some v } r.1, true,
          r.2.2 ++ [⟨d.id, d.label, d.type, v⟩])
      else (node d r.1, r.2.1, r.2.2)

def stepCalcList : List TreeNode → Bool → List TreeNode × Bool × List CalculationLog
  | [], found => ([], found, [])
  | c :: cs, found =>
      let r1 := stepCalcNode c found
      let r2 := stepCalcList cs r1.2.1
      (r1.1 :: r2.1, r2.2.1, r1.2.2 ++ r2.2.2)

end

/-- `handleSolve(true)` (`src/unnamed/part_001` 94-139): one stepping pass
over the current tree with `foundNext` initially false; if some node was
solved the stepped tree is committed, otherwise `markOptimalPath` runs and
the mode moves to Solved.  The carried state is (tree, accumulated log). -/
def requestStepModel : TreeNode × List CalculationLog → TreeNode × List CalculationLog
  | (t, logs) =>
      let r := stepCalcNode t false
      (if r.2.1 then r.1 else markOptimalPath r.1, logs ++ r.2.2)

/-- `resetCalculation` (`src/unnamed/part_001` 68-84): clears the log and
every node's derived fields. -/
def resetState (t : TreeNode) : TreeNode × List CalculationLog :=
  (clearValuesReset t, [])

/-- `k` successive `requestStep()` calls. -/
def stepIter : Nat → TreeNode × List CalculationLog → TreeNode × List CalculationLog
  | 0, s => s
  | k + 1, s => stepIter k (requestStepModel s)

/-- `HORIZONTAL_SPACING` from `src/components/TreeVisualizer.tsx` line 24. -/
def HORIZONTAL_SPACING : ℚ := 280

/-- `VERTICAL_SPACING` from `src/components/TreeVisualizer.tsx` line 25. -/
def VERTICAL_SPACING : ℚ := 100

/-- The `LayoutNode` helper type of `TreeVisualizer.tsx` (14-19): a node of
the input tree annotated with coordinates, with laid-out children. -/
inductive LayoutNode : Type where
  | node (tree : TreeNode) (x : ℚ) (y : ℚ) (children : List LayoutNode)

instance : Inhabited NodeData :=
  ⟨{ id := "", type := NodeType.decision, label := "", value := none,
     probability := none, collapsed := none, calculatedValue := none,
     isOptimal := none, notes := none }⟩

instance : Inhabited TreeNode := ⟨node default []⟩

instance : Inhabited LayoutNode := ⟨LayoutNode.node default 0 0 []⟩

namespace LayoutNode

def tree : LayoutNode → TreeNode
  | node t _ _ _ => t

def x : LayoutNode → ℚ
  | node _ a _ _ => a

def y : LayoutNode → ℚ
  | node _ _ b _ => b

def children : LayoutNode → List LayoutNode
  | node _ _ _ cs => cs

end LayoutNode

mutual

/-- `calculateLayout` inside `TreeVisualizer.tsx` (46-79) with the mutable
`nextY` counter threaded explicitly (second component of each result).  A
childless node is placed at `(depth × HORIZONTAL_SPACING, nextY)` and
advances `nextY` by `VERTICAL_SPACING`; any other node lays out its
children at `depth + 1` left to right and sits at
`x = depth × HORIZONTAL_SPACING`,
`y = (firstChild.y + lastChild.y) / 2` (`childrenLayouts[0]` and
`childrenLayouts[childrenLayouts.length - 1]` in the source). -/
def calculateLayout : TreeNode → Nat → ℚ → LayoutNode × ℚ
  | node d cs, depth, nextY =>
    if cs.isEmpty then
      (LayoutNode.node (node d cs) ((depth : ℚ) * HORIZONTAL_SPACING) nextY [],
        nextY + VERTICAL_SPACING)
    else
      let r := layoutList cs (depth + 1) nextY
      let midY := (r.1.headI.y + r.1.getLastI.y) / 2
      (LayoutNode.node (node d cs) ((depth : ℚ) * HORIZONTAL_SPACING) midY r.1,
        r.2)

def layoutList : List TreeNode → Nat → ℚ → List LayoutNode × ℚ
  | [], _, nextY => ([], nextY)
  | c :: cs, depth, nextY =>
      let r1 := calculateLayout c depth nextY
      let r2 := layoutList cs depth r1.2
      (r1.1 :: r2.1, r2.2)

end

/-- Subtree lookup along a path of child indices; the tool used to speak
about "every node of the tree" in input/output correspondences. -/
def getPath : TreeNode → List Nat → Option TreeNode
  | n, [] => some n
  | n, i :: p =>
      match n.children[i]? with
      | some c => getPath c p
      | none => none

/-- The data-model invariant "Terminal nodes have no children" (spec §3),
required on every subtree. -/
def NoTerminalChildren (t : TreeNode) : Prop :=
  ∀ s ∈ flattenTreePostOrder t, s.type = NodeType.terminal → s.children = []

/-- Shorthand for building `NodeData` literals in concrete test trees
(`collapsed` and `notes` are never set by the engine). -/
def mkData (i : String) (ty : NodeType) (lb : String) (v : Option ℚ)
    (pr : Option ℚ) (cv : Option ℚ) (opt : Option Bool) : NodeData :=
  { id := i, type := ty, label := lb, value := v, probability := pr,
    collapsed := none, calculatedValue := cv, isOptimal := opt, notes := none }

/-- A Terminal node whose `calculatedValue` is still undefined. -/
def exC2child : TreeNode :=
  node (mkData "t1" NodeType.terminal "leaf" (some 5) none none none) []

/-- A Decision node with `calculatedValue = 0` and one yet-unevaluated
child: the input on which claim C2's strict reading fails. -/
def exC2 : TreeNode :=
  node (mkData "d0" NodeType.decision "root" none none (some 0) none)
    [exC2child]

/-- Claim C2 as stated: in any tree returned by `markOptimalPath`, every
Decision node with a defined `calculatedValue` has exactly those children
whose **defined** `calculatedValue` lies within tolerance `1e-4` of the
parent's value flagged `isOptimal = true`, and every other child flagged
`isOptimal = false`. -/
def claimC2Statement : Prop :=
  ∀ (t : TreeNode) (p : List Nat) (s : TreeNode),
    getPath (markOptimalPath t) p = some s →
    s.type = NodeType.decision →
    ∀ v, s.calculatedValue = some v →
    ∀ c ∈ s.children,
      c.isOptimal =
        (match c.calculatedValue with
         | some w => some (decide (abs (w - v) < optTolerance))
         | none => some false)

/-! ### C4: adding a child under a Terminal node -/
/-- A childless Terminal root. -/
def exC4 : TreeNode :=
  node (mkData "r" NodeType.terminal "result" (some 1) none none none) []

/-- Claim C4 as stated: whenever `parentId` designates a Terminal node
(`findNode`), the add operation leaves every Terminal node of the resulting
tree childless — i.e. the add is rejected and the Terminal gains no child. -/
def claimC4Statement : Prop :=
  ∀ (t : TreeNode) (pid : String) (ty : NodeType) (newId : String),
    (∃ s, findNode t pid = some s ∧ s.type = NodeType.terminal) →
    ∀ s' ∈ flattenTreePostOrder (addNodeToTree newId t pid ty),
      s'.type = NodeType.terminal → s'.children = []

/-! ### Predicates on trees used as hypotheses (spec §3 invariants and
reachable-state facts) -/
/-- Spec §3: "All ids unique across the whole tree." -/
def UniqueIds (t : TreeNode) : Prop :=
  ((flattenTreePostOrder t).map TreeNode.id).Nodup

/-- Every Terminal node carries a payout value (the editor creates nodes
with `value: 0` and `createInitialTree` sets all values). -/
def TerminalValuesDefined (t : TreeNode) : Prop :=
  ∀ s ∈ flattenTreePostOrder t, s.type = NodeType.terminal → s.value.isSome

/-- No internal (non-Terminal) node has a `calculatedValue` yet — the state
right after a reset. -/
def InternalUncalculated (t : TreeNode) : Prop :=
  ∀ s ∈ flattenTreePostOrder t, s.type ≠ NodeType.terminal →
    s.calculatedValue = none

/-- Any Terminal node that has been assigned a `calculatedValue` was
assigned its own `value` (true in every reachable state: both the stepper
and the auto loop assign `calculatedValue := value` on Terminals). -/
def TerminalConsistent (t : TreeNode) : Prop :=
  ∀ s ∈ flattenTreePostOrder t, s.type = NodeType.terminal →
    s.calculatedValue = none ∨ s.calculatedValue = s.value

/-- A node with a `calculatedValue` has children with `calculatedValue`
(spec §3 post-order dependency; true in every reachable state). -/
def DownClosed (t : TreeNode) : Prop :=
  ∀ s ∈ flattenTreePostOrder t, s.calculatedValue.isSome →
    ∀ c ∈ s.children, c.calculatedValue.isSome

/-- The Boolean test selecting the nodes that the auto-replay loop
evaluates and logs: not Terminal and no `calculatedValue` yet. -/
def awaitingEval (n : TreeNode) : Bool :=
  decide (n.type ≠ NodeType.terminal) && n.calculatedValue.isNone

/-- First component (the solved tree) of the auto-replay loop. -/
def autoSolveTree (t : TreeNode) : TreeNode := (autoSolveNode t).1

/-- Log entries appended by the auto-replay loop. -/
def autoSolveLogs (t : TreeNode) : List CalculationLog := (autoSolveNode t).2.1

/-- Number of pacing delays awaited by the auto-replay loop. -/
def autoSolveDelays (t : TreeNode) : Nat := (autoSolveNode t).2.2

/-! ### C5: the reset performed on entry to the auto replay -/
/-- A Terminal node still carrying derived results from an earlier run. -/
def exC5 : TreeNode :=
  node (mkData "t" NodeType.terminal "x" (some 7) none (some 7) (some true)) []

/-- Claim C5 as stated: entering `requestAuto` from Edit or restarting from
Solved first clears `calculatedValue` and `isOptimal` on **every** node,
Terminal nodes included, and empties the log. -/
def claimC5Statement : Prop :=
  ∀ (mode : CalcMode) (t : TreeNode) (logs : List CalculationLog),
    mode = CalcMode.edit ∨ mode = CalcMode.auto →
    (autoPrepare mode t logs).2 = [] ∧
    ∀ s ∈ flattenTreePostOrder (autoPrepare mode t logs).1,
      s.calculatedValue = none ∧ s.isOptimal = none

/-! ### C3: the auto replay's log on Scenario B and in general -/
def scnBt1 : TreeNode :=
  node (mkData "t1" NodeType.terminal "hiA" (some 100) (some (1/2)) none none) []

def scnBt2 : TreeNode :=
  node (mkData "t2" NodeType.terminal "loA" (some 0) (some (1/2)) none none) []

def scnBt3 : TreeNode :=
  node (mkData "t3" NodeType.terminal "hiB" (some 60) (some (1/2)) none none) []

def scnBt4 : TreeNode :=
  node (mkData "t4" NodeType.terminal "loB" (some 20) (some (1/2)) none none) []

def scnBc1 : TreeNode :=
  node (mkData "c1" NodeType.chance "eventA" (some 0) none none none)
    [scnBt1, scnBt2]

def scnBc2 : TreeNode :=
  node (mkData "c2" NodeType.chance "eventB" (some 0) none none none)
    [scnBt3, scnBt4]

/-- Scenario B of the spec: a Decision root with two Chance children, each
with two Terminal leaves. -/
def scnB : TreeNode :=
  node (mkData "root" NodeType.decision "choose" (some 0) none none none)
    [scnBc1, scnBc2]

/-- A childless Decision node: the input on which claim C7 fails. -/
def exC7 : TreeNode :=
  node (mkData "d" NodeType.decision "lonely" (some 0) none none none) []

/-- Claim C7 as stated: after a full evaluation followed by
`markOptimalPath`, every Decision node with `calculatedValue = v` has at
least one child with `calculatedValue = v` flagged `isOptimal = true`. -/
def claimC7Statement : Prop :=
  ∀ (t : TreeNode) (p : List Nat) (s : TreeNode),
    getPath (requestAutoModel CalcMode.edit t []).1 p = some s →
    s.type = NodeType.decision →
    ∀ v, s.calculatedValue = some v →
    ∃ c ∈ s.children, c.calculatedValue = some v ∧ c.isOptimal = some true

/-- A Decision root with a single Terminal child worth 5. -/
def exW7t : TreeNode :=
  node (mkData "T" NodeType.terminal "leaf" (some 5) none none none) []

def exW7 : TreeNode :=
  node (mkData "D" NodeType.decision "root" (some 0) none none none) [exW7t]

/-! ### C8: the layout algorithm -/
mutual

/-- The leaves of a laid-out tree in left-to-right depth-first order. -/
def leavesOf : LayoutNode → List LayoutNode
  | LayoutNode.node t x y cs =>
      if cs.isEmpty then [LayoutNode.node t x y cs] else leavesList cs

def leavesList : List LayoutNode → List LayoutNode
  | [] => []
  | c :: cs => leavesOf c ++ leavesList cs

end

mutual

/-- Number of leaves (childless nodes) of a tree. -/
def numLeaves : TreeNode → Nat
  | node _ cs => if cs.isEmpty then 1 else numLeavesList cs

def numLeavesList : List TreeNode → Nat
  | [] => 0
  | c :: cs => numLeaves c + numLeavesList cs

end

mutual

/-- Every node of the laid-out tree sits at
`x = depth × HORIZONTAL_SPACING`, its children one depth further. -/
def XOk : LayoutNode → Nat → Prop
  | LayoutNode.node _ x _ cs, depth =>
      x = (depth : ℚ) * HORIZONTAL_SPACING ∧ XOkList cs (depth + 1)

def XOkList : List LayoutNode → Nat → Prop
  | [], _ => True
  | c :: cs, depth => XOk c depth ∧ XOkList cs depth

end

mutual

/-- Every node of the laid-out tree with children sits at the midpoint of
its first and last child's vertical coordinate. -/
def MidOk : LayoutNode → Prop
  | LayoutNode.node _ _ y cs =>
      (cs ≠ [] → y = (cs.headI.y + cs.getLastI.y) / 2) ∧ MidOkList cs

def MidOkList : List LayoutNode → Prop
  | [] => True
  | c :: cs => MidOk c ∧ MidOkList cs

end

/-- A partially stepped tree: the Terminal child already evaluated (to its
own value), the Decision root not yet. -/
def exC10 : TreeNode :=
  node (mkData "D" NodeType.decision "root" (some 0) none none none)
    [node (mkData "T" NodeType.terminal "leaf" (some 5) none (some 5) none) []]

/-! ### C6: post-order logging — descendant relation machinery -/
/-- The strict subnodes of a tree: everything except the root itself. -/
def strictSubnodes : TreeNode → List TreeNode
  | node _ cs => flattenList cs

/-- "`dId` is the id of a strict descendant of the node with id `nId`"
inside tree `w`. -/
def StrictDescId (w : TreeNode) (dId nId : String) : Prop :=
  ∃ n ∈ flattenTreePostOrder w, n.id = nId ∧
    ∃ x ∈ strictSubnodes n, x.id = dId

/-- The post-order property of a log relative to tree `w`: no entry is for
a strict descendant of an earlier entry's node, i.e. every logged internal
node appears strictly after all of its logged descendants. -/
def GoodLog (w : TreeNode) (l : List CalculationLog) : Prop :=
  l.Pairwise (fun a b => ¬ StrictDescId w b.nodeId a.nodeId)

mutual

/-- Erase every `isOptimal` flag of a tree.  `markOptimalPath` touches
nothing else (`eraseOpt_mark` below). -/
def eraseOpt : TreeNode → TreeNode
  | node d cs => node { d with isOptimal := none } (eraseOptList cs)

def eraseOptList : List TreeNode → List TreeNode
  | [] => []
  | c :: cs => eraseOpt c :: eraseOptList cs

end

/-- Two trees agreeing after a full derived-field reset: same ids, types,
labels, payouts and child structure — only `calculatedValue` / `isOptimal`
may differ.  Every state reachable from `t` by the calculation engine
stays in this relation to `t`. -/
abbrev ShapeEq (t u : TreeNode) : Prop :=
  clearValuesReset u = clearValuesReset t

/-! ### Downward closure of `calculatedValue` and the post-order log -/
/-- Every node that carries a `calculatedValue` has all of its strict
descendants carrying one too (true in every reachable calculation state:
values are assigned bottom-up). -/
def CalcClosed (u : TreeNode) : Prop :=
  ∀ n ∈ flattenTreePostOrder u, n.calculatedValue.isSome →
    ∀ x ∈ strictSubnodes n, x.calculatedValue.isSome

/-- Every node named by an accumulated log entry carries a
`calculatedValue` in the current tree. -/
def LoggedHaveCV (u : TreeNode) (l : List CalculationLog) : Prop :=
  ∀ e ∈ l, ∀ n ∈ flattenTreePostOrder u, n.id = e.nodeId →
    n.calculatedValue.isSome

/-- Invariant carried by the (tree, accumulated log) state of the stepping
mode, relative to the tree `t` the run started from: the state's tree has
`t`'s shape and ids, its `calculatedValue`s are downward closed, all logged
nodes are evaluated, and the log is post-ordered. -/
def StepInv (t : TreeNode) (s : TreeNode × List CalculationLog) : Prop :=
  ShapeEq t s.1 ∧ CalcClosed s.1 ∧ LoggedHaveCV s.1 s.2 ∧ GoodLog t s.2

/-- A small well-formed tree (Decision root over one Terminal leaf) used to
instantiate the post-order logging theorem. -/
def exC6 : TreeNode :=
  node (mkData "r6" NodeType.decision "root" none none none none)
    [node (mkData "l6" NodeType.terminal "leaf" (some 3) none none none) []]

namespace TreeNode

@[simp] theorem data_node (d : NodeData) (cs : List TreeNode) :
    (node d cs).data = d := rfl

@[simp] theorem children_node (d : NodeData) (cs : List TreeNode) :
    (node d cs).children = cs := rfl

@[simp] theorem id_node (d : NodeData) (cs : List TreeNode) :
    (node d cs).id = d.id := rfl

@[simp] theorem type_node (d : NodeData) (cs : List TreeNode) :
    (node d cs).type = d.type := rfl

@[simp] theorem label_node (d : NodeData) (cs : List TreeNode) :
    (node d cs).label = d.label := rfl

@[simp] theorem value_node (d : NodeData) (cs : List TreeNode) :
    (node d cs).value = d.value := rfl

@[simp] theorem probability_node (d : NodeData) (cs : List TreeNode) :
    (node d cs).probability = d.probability := rfl

@[simp] theorem calculatedValue_node (d : NodeData) (cs : List TreeNode) :
    (node d cs).calculatedValue = d.calculatedValue := rfl

@[simp] theorem isOptimal_node (d : NodeData) (cs : List TreeNode) :
    (node d cs).isOptimal = d.isOptimal := rfl

end TreeNode

@[simp] theorem setIsOptimal_children (b : Option Bool) (n : TreeNode) :
    (setIsOptimal b n).children = n.children := by
  cases n; rfl

@[simp] theorem setIsOptimal_id (b : Option Bool) (n : TreeNode) :
    (setIsOptimal b n).id = n.id := by
  cases n; rfl

@[simp] theorem setIsOptimal_type (b : Option Bool) (n : TreeNode) :
    (setIsOptimal b n).type = n.type := by
  cases n; rfl

@[simp] theorem setIsOptimal_calculatedValue (b : Option Bool) (n : TreeNode) :
    (setIsOptimal b n).calculatedValue = n.calculatedValue := by
  cases n; rfl

@[simp] theorem setIsOptimal_isOptimal (b : Option Bool) (n : TreeNode) :
    (setIsOptimal b n).isOptimal = b := by
  cases n; rfl

theorem foldl_max_eq_maximum (v : ℚ) (vs : List ℚ) :
    vs.foldl max v = ((v :: vs).maximum).unbot' 0 := by
  induction vs generalizing v with
  | nil => simp [List.maximum_cons]
  | cons w ws ih =>
      rw [List.foldl_cons, ih (max v w)]
      simp only [List.maximum_cons]
      rw [WithBot.coe_sup, sup_assoc]

theorem foldl_add_eq_sum (cs : List TreeNode) (a : ℚ) :
    cs.foldl (fun sum c => sum + c.calculatedValue.getD 0 * c.probability.getD 0) a
      = a + (cs.map (fun c => c.calculatedValue.getD 0 * c.probability.getD 0)).sum := by
  induction cs generalizing a with
  | nil => simp
  | cons c cs ih => simp [List.foldl_cons, ih, add_assoc]

@[simp] theorem getPath_nil (n : TreeNode) : getPath n [] = some n := rfl

theorem getPath_cons (n : TreeNode) (i : Nat) (p : List Nat) :
    getPath n (i :: p) =
      match n.children[i]? with
      | some c => getPath c p
      | none => none := rfl

/-- C1: `calculateNodeEMV` computes exactly the node value described by the
claim — Terminal: its value with undefined defaulting to 0; Decision: the
maximum of the children's `calculatedValue` (undefined treated as 0), 0 with
no children; Chance: the sum of `calculatedValue × probability` over the
children with missing `calculatedValue` or `probability` treated as 0. -/
theorem C1_calculateNodeEMV_matches_claim (n : TreeNode) :
    calculateNodeEMV n = emvClaimSpec n := by
  unfold calculateNodeEMV emvClaimSpec
  cases htype : n.type with
  | terminal => simp
  | decision =>
      cases hcs : n.children with
      | nil => simp
      | cons c cs =>
          simp only [List.isEmpty_cons, List.map_cons, reduceCtorEq, if_false,
            if_true, Bool.false_eq_true]
          rw [foldl_max_eq_maximum]
  | chance =>
      cases hcs : n.children with
      | nil => simp
      | cons c cs =>
          simp only [List.isEmpty_cons, List.map_cons, reduceCtorEq, if_false,
            if_true, Bool.false_eq_true]
          rw [List.foldl_cons, foldl_add_eq_sum]
          simp [List.sum_cons]

/-! ### Basic facts about `flattenTreePostOrder` membership -/
theorem mem_flattenList {s : TreeNode} {cs : List TreeNode} :
    s ∈ flattenList cs ↔ ∃ c ∈ cs, s ∈ flattenTreePostOrder c := by
  induction cs with
  | nil => simp [flattenList]
  | cons c cs ih => simp [flattenList, List.mem_append, ih]

theorem self_mem_flatten (t : TreeNode) : t ∈ flattenTreePostOrder t := by
  cases t with
  | node d cs => simp [flattenTreePostOrder]

theorem mem_flatten_of_mem_child {t c s : TreeNode} (hc : c ∈ t.children)
    (hs : s ∈ flattenTreePostOrder c) : s ∈ flattenTreePostOrder t := by
  cases t with
  | node d cs =>
      simp only [flattenTreePostOrder, List.mem_append]
      exact Or.inl (mem_flattenList.mpr ⟨c, hc, hs⟩)

theorem noTerminalChildren_child {t c : TreeNode} (h : NoTerminalChildren t)
    (hc : c ∈ t.children) : NoTerminalChildren c :=
  fun s hs => h s (mem_flatten_of_mem_child hc hs)

/-! ### Structure of `markOptimalPath` -/
theorem markList_eq_map (cs : List TreeNode) :
    markList cs = cs.map markOptimalPath := by
  induction cs with
  | nil => rfl
  | cons c cs ih => rw [markList, ih, List.map_cons]

theorem markOptimalPath_data (t : TreeNode) :
    (markOptimalPath t).data = t.data := by
  cases t with
  | node d cs =>
      rw [markOptimalPath]
      split
      · rfl
      · dsimp only
        split
        · split <;> rfl
        · rfl

theorem markOptimalPath_id (t : TreeNode) : (markOptimalPath t).id = t.id :=
  congrArg NodeData.id (markOptimalPath_data t)

theorem markOptimalPath_type (t : TreeNode) :
    (markOptimalPath t).type = t.type :=
  congrArg NodeData.type (markOptimalPath_data t)

theorem markOptimalPath_calculatedValue (t : TreeNode) :
    (markOptimalPath t).calculatedValue = t.calculatedValue :=
  congrArg NodeData.calculatedValue (markOptimalPath_data t)

theorem markOptimalPath_isOptimal (t : TreeNode) :
    (markOptimalPath t).isOptimal = t.isOptimal :=
  congrArg NodeData.isOptimal (markOptimalPath_data t)

theorem markOptimalPath_term_or_empty {d : NodeData} {cs : List TreeNode}
    (h : d.type = NodeType.terminal ∨ cs = []) :
    markOptimalPath (node d cs) = node d cs := by
  rw [markOptimalPath, if_pos]
  rcases h with h | h
  · exact Or.inl h
  · exact Or.inr (by simp [h])

theorem markOptimalPath_decision_some {d : NodeData} {cs : List TreeNode}
    (hd : d.type = NodeType.decision) (hcs : cs ≠ []) {v : ℚ}
    (hv : d.calculatedValue = some v) :
    markOptimalPath (node d cs) =
      node d ((cs.map markOptimalPath).map (fun c =>
        setIsOptimal
          (some (decide (abs (c.calculatedValue.getD 0 - v) < optTolerance))) c)) := by
  rw [markOptimalPath, if_neg]
  · dsimp only
    rw [if_pos hd, markList_eq_map, hv]
  · rintro (h | h)
    · rw [hd] at h
      exact absurd h (by decide)
    · exact hcs (by simpa using h)

theorem markOptimalPath_other {d : NodeData} {cs : List TreeNode}
    (hterm : d.type ≠ NodeType.terminal) (hcs : cs ≠ [])
    (h2 : d.type ≠ NodeType.decision ∨ d.calculatedValue = none) :
    markOptimalPath (node d cs) = node d (cs.map markOptimalPath) := by
  rw [markOptimalPath, if_neg]
  · dsimp only
    rcases h2 with h2 | h2
    · rw [if_neg h2, markList_eq_map]
    · split
      · rw [h2, markList_eq_map]
      · rw [markList_eq_map]
  · rintro (h | h)
    · exact hterm h
    · exact hcs (by simpa using h)

theorem getPath_setIsOptimal (b : Option Bool) (m : TreeNode) (i : Nat)
    (q : List Nat) :
    getPath (setIsOptimal b m) (i :: q) = getPath m (i :: q) := by
  cases m
  rfl

/-- Output-to-input correspondence of `markOptimalPath` along a path: on a
tree whose Terminal nodes are childless, the subtree of the output at any
path is the marked input subtree at the same path, except that its own
`isOptimal` flag may have been overwritten by its parent. -/
theorem getPath_mark_surj {t : TreeNode} (hT : NoTerminalChildren t)
    (p : List Nat) {s' : TreeNode}
    (h : getPath (markOptimalPath t) p = some s') :
    ∃ s, getPath t p = some s ∧
      (s' = markOptimalPath s ∨
        ∃ b, s' = setIsOptimal (some b) (markOptimalPath s)) := by
  induction p generalizing t s' with
  | nil =>
      simp only [getPath_nil, Option.some_inj] at h
      exact ⟨t, rfl, Or.inl h.symm⟩
  | cons i q ih =>
      cases t with
      | node d cs =>
          by_cases hterm : d.type = NodeType.terminal
          · have hcs : cs = [] := hT (node d cs) (self_mem_flatten _) hterm
            subst hcs
            rw [markOptimalPath_term_or_empty (Or.inl hterm)] at h
            rw [getPath_cons] at h
            simp at h
          · by_cases hcs : cs = []
            · subst hcs
              rw [markOptimalPath_term_or_empty (Or.inr rfl)] at h
              rw [getPath_cons] at h
              simp at h
            · by_cases hdec : d.type = NodeType.decision ∧ d.calculatedValue.isSome
              · obtain ⟨hd, hcv⟩ := hdec
                obtain ⟨v, hv⟩ := Option.isSome_iff_exists.mp hcv
                rw [markOptimalPath_decision_some hd hcs hv] at h
                rw [getPath_cons] at h
                simp only [TreeNode.children_node, List.getElem?_map] at h
                cases hci : cs[i]? with
                | none => rw [hci] at h; simp at h
                | some c =>
                    rw [hci] at h
                    simp only [Option.map_some'] at h
                    have hTc : NoTerminalChildren c :=
                      noTerminalChildren_child hT (by exact List.getElem?_mem hci)
                    cases q with
                    | nil =>
                        simp only [getPath_nil, Option.some_inj] at h
                        refine ⟨c, ?_, Or.inr ⟨_, h.symm⟩⟩
                        rw [getPath_cons]
                        simp [hci]
                    | cons j q' =>
                        rw [getPath_setIsOptimal] at h
                        obtain ⟨s, hs, hrel⟩ := ih hTc h
                        refine ⟨s, ?_, hrel⟩
                        rw [getPath_cons]
                        simp [hci, hs]
              · have hother : d.type ≠ NodeType.decision ∨ d.calculatedValue = none := by
                  by_cases h1 : d.type = NodeType.decision
                  · right
                    cases h2 : d.calculatedValue with
                    | none => rfl
                    | some w => exact absurd ⟨h1, by simp [h2]⟩ hdec
                  · exact Or.inl h1
                rw [markOptimalPath_other hterm hcs hother] at h
                rw [getPath_cons] at h
                simp only [TreeNode.children_node, List.getElem?_map] at h
                cases hci : cs[i]? with
                | none => rw [hci] at h; simp at h
                | some c =>
                    rw [hci] at h
                    simp only [Option.map_some'] at h
                    have hTc : NoTerminalChildren c :=
                      noTerminalChildren_child hT (by exact List.getElem?_mem hci)
                    obtain ⟨s, hs, hrel⟩ := ih hTc h
                    refine ⟨s, ?_, hrel⟩
                    rw [getPath_cons]
                    simp [hci, hs]

/-- Evaluating `markOptimalPath` on the one-child example: the child with
undefined `calculatedValue` is flagged `isOptimal = true` because
`undefined ?? 0` is within tolerance of the parent's value 0. -/
theorem mark_exC2_eq :
    markOptimalPath exC2 =
      node (mkData "d0" NodeType.decision "root" none none (some 0) none)
        [setIsOptimal (some true) exC2child] := by
  have h1 : markOptimalPath exC2child = exC2child := by
    rw [show exC2child
        = node (mkData "t1" NodeType.terminal "leaf" (some 5) none none none) []
        from rfl]
    exact markOptimalPath_term_or_empty (Or.inl rfl)
  have hflag :
      (decide (abs (exC2child.calculatedValue.getD 0 - 0) < optTolerance)) = true := by
    rw [decide_eq_true_eq]
    norm_num [exC2child, optTolerance, TreeNode.calculatedValue, TreeNode.data, mkData]
  rw [show exC2
      = node (mkData "d0" NodeType.decision "root" none none (some 0) none)
        [exC2child] from rfl]
  rw [markOptimalPath_decision_some rfl (by simp) rfl]
  simp only [List.map_cons, List.map_nil, h1, hflag]

/-- C2 fails as stated: on a Decision node with `calculatedValue = 0` whose
child has no `calculatedValue`, the code compares `undefined ?? 0` against
the parent's value and flags the child `isOptimal = true`, where the claim
("each child whose calculatedValue is within tolerance … every other child
gets isOptimal = false") requires `false`. -/
theorem C2_counterexample : ¬ claimC2Statement := by
  intro h
  have h2 := h exC2 [] (markOptimalPath exC2) rfl
    (by rw [mark_exC2_eq]; rfl) 0 (by rw [mark_exC2_eq]; rfl)
    (setIsOptimal (some true) exC2child)
    (by rw [mark_exC2_eq]; exact List.mem_singleton.mpr rfl)
  rw [setIsOptimal_isOptimal, setIsOptimal_calculatedValue,
    show exC2child.calculatedValue = none from rfl] at h2
  simp at h2

/-- C2 (amended, as the counterexample forces): in the tree returned by
`markOptimalPath`, every Decision node with a defined `calculatedValue` has
each child flagged `isOptimal = true` exactly when the child's
`calculatedValue` — **with an undefined value treated as 0** — is within
tolerance 1e-4 of the parent's value (simultaneous ties all marked), and
every other child flagged `false`; Chance nodes never set `isOptimal` on
their children (their children keep the flags they had in the input).
Stated for trees satisfying the spec's "Terminal nodes have no children"
invariant. -/
theorem C2_markOptimalPath_amended (t : TreeNode) (hT : NoTerminalChildren t)
    (p : List Nat) (s : TreeNode)
    (h : getPath (markOptimalPath t) p = some s) :
    (s.type = NodeType.decision →
      ∀ v, s.calculatedValue = some v →
        ∀ c ∈ s.children,
          c.isOptimal =
            some (decide (abs (c.calculatedValue.getD 0 - v) < optTolerance)))
    ∧ (s.type = NodeType.chance →
        ∃ sIn, getPath t p = some sIn ∧
          s.children.map (fun c => c.isOptimal)
            = sIn.children.map (fun c => c.isOptimal)) := by
  obtain ⟨s0, hs0, hrel⟩ := getPath_mark_surj hT p h
  have hch : s.children = (markOptimalPath s0).children := by
    rcases hrel with rfl | ⟨b, rfl⟩
    · rfl
    · rw [setIsOptimal_children]
  have hty : s.type = s0.type := by
    rcases hrel with rfl | ⟨b, rfl⟩
    · exact markOptimalPath_type s0
    · rw [setIsOptimal_type]; exact markOptimalPath_type s0
  have hcv : s.calculatedValue = s0.calculatedValue := by
    rcases hrel with rfl | ⟨b, rfl⟩
    · exact markOptimalPath_calculatedValue s0
    · rw [setIsOptimal_calculatedValue]; exact markOptimalPath_calculatedValue s0
  constructor
  · intro hdec v hv c hc
    rw [hch] at hc
    cases s0 with
    | node d cs =>
        have hd : d.type = NodeType.decision := by
          rw [hty] at hdec; exact hdec
        have hv0 : d.calculatedValue = some v := by
          rw [hcv] at hv; exact hv
        cases hcs : cs with
        | nil =>
            subst hcs
            rw [markOptimalPath_term_or_empty (Or.inr rfl)] at hc
            simp at hc
        | cons c0 cs0 =>
            subst hcs
            rw [markOptimalPath_decision_some hd (by simp) hv0] at hc
            simp only [TreeNode.children_node, List.mem_map] at hc
            obtain ⟨m, _hm, rfl⟩ := hc
            rw [setIsOptimal_isOptimal, setIsOptimal_calculatedValue]
  · intro hchance
    refine ⟨s0, hs0, ?_⟩
    rw [hch]
    cases s0 with
    | node d cs =>
        have hd : d.type = NodeType.chance := by
          rw [hty] at hchance; exact hchance
        cases hcs : cs with
        | nil =>
            subst hcs
            rw [markOptimalPath_term_or_empty (Or.inr rfl)]
        | cons c0 cs0 =>
            subst hcs
            rw [markOptimalPath_other (by rw [hd]; decide) (by simp)
              (Or.inl (by rw [hd]; decide))]
            simp only [TreeNode.children_node, List.map_map]
            exact List.map_congr_left (fun c _ => markOptimalPath_isOptimal c)

/-- Witness for `C2_markOptimalPath_amended`: the theorem applied to the
concrete tree `exC2` at the root path. -/
theorem C2_markOptimalPath_amended_witness :
    ((markOptimalPath exC2).type = NodeType.decision →
      ∀ v, (markOptimalPath exC2).calculatedValue = some v →
        ∀ c ∈ (markOptimalPath exC2).children,
          c.isOptimal =
            some (decide (abs (c.calculatedValue.getD 0 - v) < optTolerance)))
    ∧ ((markOptimalPath exC2).type = NodeType.chance →
        ∃ sIn, getPath exC2 [] = some sIn ∧
          (markOptimalPath exC2).children.map (fun c => c.isOptimal)
            = sIn.children.map (fun c => c.isOptimal)) :=
  C2_markOptimalPath_amended exC2
    (by
      intro s hs hterm
      have : s = exC2child ∨ s = exC2 := by
        have : flattenTreePostOrder exC2 = [exC2child, exC2] := rfl
        rw [this] at hs
        simpa using hs
      rcases this with rfl | rfl
      · rfl
      · exact absurd hterm (by decide))
    [] (markOptimalPath exC2) rfl

/-- Structural induction over `TreeNode` with the hypothesis available for
every child. -/
theorem tree_induction {P : TreeNode → Prop}
    (h : ∀ d cs, (∀ c ∈ cs, P c) → P (node d cs)) : ∀ t, P t := by
  intro t
  induction t using TreeNode.rec (motive_2 := fun cs => ∀ c ∈ cs, P c) with
  | node d cs ih => exact h d cs ih
  | nil =>
      rename_i c hc
      cases hc
  | cons c cs ihc ihcs =>
      rename_i x hx
      rcases List.mem_cons.mp hx with rfl | hx2
      · exact ihc
      · exact ihcs x hx2

/-- C4 fails as stated: `addNodeToTree` has no type check, so adding under
the Terminal root `exC4` gives that Terminal a child. -/
theorem C4_counterexample : ¬ claimC4Statement := by
  intro h
  have hadd : addNodeToTree "x" exC4 "r" NodeType.terminal
      = node (mkData "r" NodeType.terminal "result" (some 1) none none none)
        [newChildNode "x" NodeType.terminal] := rfl
  have h2 := h exC4 "r" NodeType.terminal "x" ⟨exC4, rfl, rfl⟩
    (addNodeToTree "x" exC4 "r" NodeType.terminal)
    (self_mem_flatten _) (by rw [hadd]; rfl)
  rw [hadd] at h2
  simp at h2

/-- C4 (amended): the tree-level `addNodeToTree` performs no topology
check — the node matched by `parentId` (found by depth-first `findNode`,
in particular a Terminal node) ends up with a non-empty children list in
the result, the fresh node having been appended; the only safeguard in the
program is in the UI layer, where `Controls` renders no add-child buttons
for a selected Terminal node. -/
theorem C4_addNodeToTree_amended :
    (∀ (t : TreeNode) (pid : String) (ty : NodeType) (newId : String) (s : TreeNode),
      findNode t pid = some s → s.type = NodeType.terminal →
      ∃ s' ∈ flattenTreePostOrder (addNodeToTree newId t pid ty),
        s'.id = pid ∧ s'.type = NodeType.terminal ∧ s'.children ≠ [])
    ∧ showsAddChildButtons NodeType.terminal = false := by
  constructor
  · intro t pid ty newId
    induction t using tree_induction with
    | h d cs ih =>
        intro s hfind hsterm
        rw [findNode] at hfind
        by_cases hid : d.id = pid
        · rw [if_pos hid] at hfind
          have hs : s = node d cs := by
            exact (Option.some_inj.mp hfind).symm
          subst hs
          refine ⟨addNodeToTree newId (node d cs) pid ty, self_mem_flatten _, ?_⟩
          rw [addNodeToTree, if_pos hid]
          refine ⟨hid, hsterm, by simp⟩
        · rw [if_neg hid] at hfind
          have : ∃ c ∈ cs, findNode c pid = some s := by
            clear ih
            induction cs with
            | nil => simp [findList] at hfind
            | cons c0 cs0 ihl =>
                rw [findList] at hfind
                cases hf0 : findNode c0 pid with
                | some r =>
                    rw [hf0] at hfind
                    simp only [Option.some_inj] at hfind
                    exact ⟨c0, by simp, by rw [hf0, hfind]⟩
                | none =>
                    rw [hf0] at hfind
                    simp only at hfind
                    obtain ⟨c, hc, hcf⟩ := ihl hfind
                    exact ⟨c, by simp [hc], hcf⟩
          obtain ⟨c, hc, hcf⟩ := this
          obtain ⟨s', hs'mem, hs'⟩ := ih c hc s hcf hsterm
          refine ⟨s', ?_, hs'⟩
          have hchild : addNodeToTree newId c pid ty
              ∈ (addNodeToTree newId (node d cs) pid ty).children := by
            rw [addNodeToTree, if_neg hid]
            simp only [TreeNode.children_node]
            clear ih hcf hfind
            induction cs with
            | nil => cases hc
            | cons c0 cs0 ihl =>
                rw [addList]
                rcases List.mem_cons.mp hc with rfl | hc2
                · exact List.mem_cons_self _ _
                · exact List.mem_cons_of_mem _ (ihl hc2)
          exact mem_flatten_of_mem_child hchild hs'mem
  · rfl

/-- Witness for `C4_addNodeToTree_amended`: instantiating the first clause
on the Terminal root `exC4`. -/
theorem C4_addNodeToTree_amended_witness :
    ∃ s' ∈ flattenTreePostOrder (addNodeToTree "x" exC4 "r" NodeType.terminal),
      s'.id = "r" ∧ s'.type = NodeType.terminal ∧ s'.children ≠ [] :=
  C4_addNodeToTree_amended.1 exC4 "r" NodeType.terminal "x" exC4 rfl rfl

/-! ### Structure of the auto-replay loop -/
theorem autoSolveList_cons (c : TreeNode) (cs : List TreeNode) :
    autoSolveList (c :: cs)
      = ((autoSolveNode c).1 :: (autoSolveList cs).1,
         (autoSolveNode c).2.1 ++ (autoSolveList cs).2.1,
         (autoSolveNode c).2.2 + (autoSolveList cs).2.2) := rfl

theorem autoSolveList_tree (cs : List TreeNode) :
    (autoSolveList cs).1 = cs.map autoSolveTree := by
  induction cs with
  | nil => rfl
  | cons c cs ih =>
      rw [autoSolveList_cons, List.map_cons, ← ih]
      rfl

theorem autoSolveTree_children (d : NodeData) (cs : List TreeNode) :
    (autoSolveTree (node d cs)).children = cs.map autoSolveTree := by
  rw [autoSolveTree, autoSolveNode]
  split_ifs <;> simp [autoSolveList_tree]

theorem autoSolveTree_data (d : NodeData) (cs : List TreeNode) :
    (autoSolveTree (node d cs)).data =
      if d.type = NodeType.terminal then { d with calculatedValue := d.value }
      else if d.calculatedValue.isSome then d
      else
        { d with
            calculatedValue :=
              some (calculateNodeEMV (node d (autoSolveList cs).1)) } := by
  rw [autoSolveTree, autoSolveNode]
  split_ifs <;> rfl

theorem autoSolveTree_id (t : TreeNode) : (autoSolveTree t).id = t.id := by
  cases t with
  | node d cs =>
      show ((autoSolveTree (node d cs)).data).id = d.id
      rw [autoSolveTree_data]
      split_ifs <;> rfl

theorem autoSolveTree_type (t : TreeNode) : (autoSolveTree t).type = t.type := by
  cases t with
  | node d cs =>
      show ((autoSolveTree (node d cs)).data).type = d.type
      rw [autoSolveTree_data]
      split_ifs <;> rfl

theorem autoSolveTree_value (t : TreeNode) :
    (autoSolveTree t).value = t.value := by
  cases t with
  | node d cs =>
      show ((autoSolveTree (node d cs)).data).value = d.value
      rw [autoSolveTree_data]
      split_ifs <;> rfl

theorem autoSolveTree_cv_terminal {t : TreeNode}
    (h : t.type = NodeType.terminal) :
    (autoSolveTree t).calculatedValue = t.value := by
  cases t with
  | node d cs =>
      show ((autoSolveTree (node d cs)).data).calculatedValue = d.value
      rw [autoSolveTree_data, if_pos (show d.type = NodeType.terminal from h)]

theorem autoSolveTree_cv_skip {t : TreeNode}
    (h1 : t.type ≠ NodeType.terminal) (h2 : t.calculatedValue.isSome) :
    (autoSolveTree t).calculatedValue = t.calculatedValue := by
  cases t with
  | node d cs =>
      show ((autoSolveTree (node d cs)).data).calculatedValue = d.calculatedValue
      rw [autoSolveTree_data,
        if_neg (show ¬ d.type = NodeType.terminal from h1),
        if_pos (show d.calculatedValue.isSome = true from h2)]

theorem autoSolveTree_cv_eval {d : NodeData} {cs : List TreeNode}
    (h1 : d.type ≠ NodeType.terminal) (h2 : d.calculatedValue = none) :
    (autoSolveTree (node d cs)).calculatedValue =
      some (calculateNodeEMV (node d (cs.map autoSolveTree))) := by
  show ((autoSolveTree (node d cs)).data).calculatedValue = _
  rw [autoSolveTree_data, if_neg h1, if_neg (by simp [h2]), autoSolveList_tree]

/-! ### The log sequence of the auto-replay loop -/
theorem flattenTreePostOrder_def (t : TreeNode) :
    flattenTreePostOrder t = flattenList t.children ++ [t] := by
  cases t
  rfl

theorem autoSolveLogs_node (d : NodeData) (cs : List TreeNode) :
    autoSolveLogs (node d cs) =
      if d.type = NodeType.terminal then (autoSolveList cs).2.1
      else if d.calculatedValue.isSome then (autoSolveList cs).2.1
      else (autoSolveList cs).2.1
        ++ [⟨d.id, d.label, d.type,
              calculateNodeEMV (node d (autoSolveList cs).1)⟩] := by
  rw [autoSolveLogs, autoSolveNode]
  split_ifs <;> rfl

theorem logsProj_list (cs : List TreeNode)
    (ih : ∀ c ∈ cs,
      (autoSolveLogs c).map (fun e => (e.nodeId, e.nodeType))
        = ((flattenTreePostOrder c).filter awaitingEval).map
            (fun n => (n.id, n.type))) :
    ((autoSolveList cs).2.1).map (fun e => (e.nodeId, e.nodeType))
      = ((flattenList cs).filter awaitingEval).map (fun n => (n.id, n.type)) := by
  induction cs with
  | nil => rfl
  | cons c cs0 ihl =>
      rw [autoSolveList_cons]
      show (autoSolveLogs c ++ (autoSolveList cs0).2.1).map _ = _
      rw [flattenList, List.filter_append, List.map_append, List.map_append]
      rw [ih c (by simp), ihl (fun c' hc' => ih c' (by simp [hc']))]

theorem autoSolveLogs_proj (t : TreeNode) :
    (autoSolveLogs t).map (fun e => (e.nodeId, e.nodeType))
      = ((flattenTreePostOrder t).filter awaitingEval).map
          (fun n => (n.id, n.type)) := by
  induction t using tree_induction with
  | h d cs ih =>
      have hlist := logsProj_list cs ih
      rw [flattenTreePostOrder_def, List.filter_append, List.map_append,
        autoSolveLogs_node]
      show _ = _ ++ ([node d cs].filter awaitingEval).map (fun n => (n.id, n.type))
      by_cases h1 : d.type = NodeType.terminal
      · rw [if_pos h1]
        have hA : awaitingEval (node d cs) = false := by
          simp [awaitingEval, h1]
        simp only [List.filter_singleton, hA]
        simpa using hlist
      · rw [if_neg h1]
        by_cases h2 : d.calculatedValue.isSome
        · rw [if_pos h2]
          obtain ⟨w, hw⟩ := Option.isSome_iff_exists.mp h2
          have hA : awaitingEval (node d cs) = false := by
            simp [awaitingEval, hw]
          simp only [List.filter_singleton, hA]
          simpa using hlist
        · rw [if_neg h2]
          have h3 : d.calculatedValue = none :=
            Option.not_isSome_iff_eq_none.mp h2
          have hA : awaitingEval (node d cs) = true := by
            simp [awaitingEval, h1, h3]
          simp only [List.filter_singleton, hA, if_true]
          rw [List.map_append, hlist]
          rfl

theorem delays_list (cs : List TreeNode)
    (ih : ∀ c ∈ cs, autoSolveDelays c = (autoSolveLogs c).length) :
    (autoSolveList cs).2.2 = ((autoSolveList cs).2.1).length := by
  induction cs with
  | nil => rfl
  | cons c cs0 ihl =>
      rw [autoSolveList_cons]
      show autoSolveDelays c + (autoSolveList cs0).2.2
        = (autoSolveLogs c ++ (autoSolveList cs0).2.1).length
      rw [List.length_append, ih c (by simp),
        ihl (fun c' hc' => ih c' (by simp [hc']))]

theorem autoSolveDelays_eq_length (t : TreeNode) :
    autoSolveDelays t = (autoSolveLogs t).length := by
  induction t using tree_induction with
  | h d cs ih =>
      have hlist := delays_list cs ih
      rw [autoSolveDelays, autoSolveLogs, autoSolveNode]
      split_ifs with h1 h2
      · exact hlist
      · exact hlist
      · show (autoSolveList cs).2.2 + 1 = ((autoSolveList cs).2.1 ++ [_]).length
        rw [List.length_append, hlist]
        rfl

/-! ### Node-by-node tree transformations and `flattenTreePostOrder` -/
theorem flattenList_map (F : TreeNode → TreeNode) (cs : List TreeNode)
    (ih : ∀ c ∈ cs,
      flattenTreePostOrder (F c) = (flattenTreePostOrder c).map F) :
    flattenList (cs.map F) = (flattenList cs).map F := by
  induction cs with
  | nil => rfl
  | cons c cs0 ihl =>
      rw [List.map_cons, flattenList, flattenList, List.map_append,
        ih c (by simp), ihl (fun c' hc' => ih c' (by simp [hc']))]

theorem flatten_map (F : TreeNode → TreeNode)
    (hF : ∀ t, (F t).children = t.children.map F) :
    ∀ t, flattenTreePostOrder (F t) = (flattenTreePostOrder t).map F := by
  intro t
  induction t using tree_induction with
  | h d cs ih =>
      rw [flattenTreePostOrder_def (F (node d cs)), hF,
        flattenTreePostOrder_def (node d cs)]
      simp only [TreeNode.children_node]
      rw [flattenList_map F cs ih, List.map_append]
      rfl

theorem mem_flatten_map {F : TreeNode → TreeNode}
    (hF : ∀ t, (F t).children = t.children.map F) {t s' : TreeNode} :
    s' ∈ flattenTreePostOrder (F t)
      ↔ ∃ s ∈ flattenTreePostOrder t, s' = F s := by
  rw [flatten_map F hF t]
  simp only [List.mem_map]
  constructor
  · rintro ⟨s, hs, rfl⟩
    exact ⟨s, hs, rfl⟩
  · rintro ⟨s, hs, rfl⟩
    exact ⟨s, hs, rfl⟩

theorem getPath_map {F : TreeNode → TreeNode}
    (hF : ∀ t, (F t).children = t.children.map F) (t : TreeNode)
    (p : List Nat) :
    getPath (F t) p = (getPath t p).map F := by
  induction p generalizing t with
  | nil => rfl
  | cons i q ih =>
      rw [getPath_cons, getPath_cons, hF, List.getElem?_map]
      cases hci : t.children[i]? with
      | none => rfl
      | some c => exact ih c

theorem clearAutoList_eq_map (cs : List TreeNode) :
    clearAutoList cs = cs.map clearValuesAuto := by
  induction cs with
  | nil => rfl
  | cons c cs ih => rw [clearAutoList, ih, List.map_cons]

theorem clearValuesAuto_children (t : TreeNode) :
    (clearValuesAuto t).children = t.children.map clearValuesAuto := by
  cases t with
  | node d cs =>
      rw [clearValuesAuto]
      split_ifs <;> simp [clearAutoList_eq_map]

theorem clearValuesAuto_data (d : NodeData) (cs : List TreeNode) :
    (clearValuesAuto (node d cs)).data =
      if d.type = NodeType.terminal then d
      else { d with calculatedValue := none, isOptimal := none } := by
  rw [clearValuesAuto]
  split_ifs <;> rfl

theorem clearValuesAuto_id (t : TreeNode) :
    (clearValuesAuto t).id = t.id := by
  cases t with
  | node d cs =>
      show ((clearValuesAuto (node d cs)).data).id = d.id
      rw [clearValuesAuto_data]
      split_ifs <;> rfl

theorem clearValuesAuto_type (t : TreeNode) :
    (clearValuesAuto t).type = t.type := by
  cases t with
  | node d cs =>
      show ((clearValuesAuto (node d cs)).data).type = d.type
      rw [clearValuesAuto_data]
      split_ifs <;> rfl

theorem clearValuesAuto_value (t : TreeNode) :
    (clearValuesAuto t).value = t.value := by
  cases t with
  | node d cs =>
      show ((clearValuesAuto (node d cs)).data).value = d.value
      rw [clearValuesAuto_data]
      split_ifs <;> rfl

theorem clearValuesAuto_cv (t : TreeNode) :
    (clearValuesAuto t).calculatedValue =
      if t.type = NodeType.terminal then t.calculatedValue else none := by
  cases t with
  | node d cs =>
      show ((clearValuesAuto (node d cs)).data).calculatedValue = _
      rw [clearValuesAuto_data]
      simp only [TreeNode.type_node, TreeNode.calculatedValue_node]
      split_ifs <;> rfl

theorem clearValuesAuto_isOptimal (t : TreeNode) :
    (clearValuesAuto t).isOptimal =
      if t.type = NodeType.terminal then t.isOptimal else none := by
  cases t with
  | node d cs =>
      show ((clearValuesAuto (node d cs)).data).isOptimal = _
      rw [clearValuesAuto_data]
      simp only [TreeNode.type_node, TreeNode.isOptimal_node]
      split_ifs <;> rfl

theorem clearResetList_eq_map (cs : List TreeNode) :
    clearResetList cs = cs.map clearValuesReset := by
  induction cs with
  | nil => rfl
  | cons c cs ih => rw [clearResetList, ih, List.map_cons]

theorem clearValuesReset_children (t : TreeNode) :
    (clearValuesReset t).children = t.children.map clearValuesReset := by
  cases t with
  | node d cs =>
      rw [clearValuesReset]
      simp [clearResetList_eq_map]

theorem clearValuesReset_data (d : NodeData) (cs : List TreeNode) :
    (clearValuesReset (node d cs)).data =
      { d with calculatedValue := none, isOptimal := none } := by
  rw [clearValuesReset]
  rfl

theorem autoSolveTree_children' (t : TreeNode) :
    (autoSolveTree t).children = t.children.map autoSolveTree := by
  cases t with
  | node d cs => simpa using autoSolveTree_children d cs

/-- C5 fails as stated: the clearing pass inside `handleSolve`'s auto
branch skips Terminal nodes (`if (node.type !== NodeType.TERMINAL)`), so a
Terminal node entering the replay keeps its old `calculatedValue` and
`isOptimal`. -/
theorem C5_counterexample : ¬ claimC5Statement := by
  intro h
  have hprep : (autoPrepare CalcMode.auto exC5 []).1 = exC5 := rfl
  have h2 := (h CalcMode.auto exC5 [] (Or.inr rfl)).2 exC5
    (by rw [hprep]; exact self_mem_flatten _)
  have h3 : exC5.calculatedValue = some 7 := rfl
  rw [h3] at h2
  simp at h2

/-- C5 (amended): entering the auto replay from Edit or restarting from
Solved empties the log and clears `calculatedValue` and `isOptimal` on
every **non-Terminal** node; Terminal nodes keep both derived fields (their
`calculatedValue` is overwritten with their `value` during the replay
itself); ids, types and values are untouched. -/
theorem C5_autoPrepare_amended (mode : CalcMode) (t : TreeNode)
    (logs : List CalculationLog)
    (hmode : mode = CalcMode.edit ∨ mode = CalcMode.auto) :
    (autoPrepare mode t logs).2 = [] ∧
    List.Forall₂ (fun s s' =>
        s'.id = s.id ∧ s'.type = s.type ∧ s'.value = s.value ∧
        (s.type = NodeType.terminal →
          s'.calculatedValue = s.calculatedValue ∧ s'.isOptimal = s.isOptimal) ∧
        (s.type ≠ NodeType.terminal →
          s'.calculatedValue = none ∧ s'.isOptimal = none))
      (flattenTreePostOrder t)
      (flattenTreePostOrder (autoPrepare mode t logs).1) := by
  have hprep : autoPrepare mode t logs = (clearValuesAuto t, []) := by
    rw [autoPrepare, if_pos hmode]
  rw [hprep]
  refine ⟨rfl, ?_⟩
  show List.Forall₂ _ _ (flattenTreePostOrder (clearValuesAuto t))
  rw [flatten_map clearValuesAuto clearValuesAuto_children t]
  rw [List.forall₂_map_right_iff]
  rw [List.forall₂_same]
  intro s _
  refine ⟨clearValuesAuto_id s, clearValuesAuto_type s, clearValuesAuto_value s,
    ?_, ?_⟩
  · intro hterm
    rw [clearValuesAuto_cv, if_pos hterm, clearValuesAuto_isOptimal,
      if_pos hterm]
    exact ⟨rfl, rfl⟩
  · intro hterm
    rw [clearValuesAuto_cv, if_neg hterm, clearValuesAuto_isOptimal,
      if_neg hterm]
    exact ⟨rfl, rfl⟩

/-- Witness for `C5_autoPrepare_amended`: restart from Solved on the
Terminal-node example. -/
theorem C5_autoPrepare_amended_witness :
    (autoPrepare CalcMode.auto exC5 []).2 = [] ∧
    List.Forall₂ (fun s s' =>
        s'.id = s.id ∧ s'.type = s.type ∧ s'.value = s.value ∧
        (s.type = NodeType.terminal →
          s'.calculatedValue = s.calculatedValue ∧ s'.isOptimal = s.isOptimal) ∧
        (s.type ≠ NodeType.terminal →
          s'.calculatedValue = none ∧ s'.isOptimal = none))
      (flattenTreePostOrder exC5)
      (flattenTreePostOrder (autoPrepare CalcMode.auto exC5 []).1) :=
  C5_autoPrepare_amended CalcMode.auto exC5 [] (Or.inr rfl)

theorem awaitingEval_clearAuto (s : TreeNode) :
    awaitingEval (clearValuesAuto s) = decide (s.type ≠ NodeType.terminal) := by
  rw [awaitingEval, clearValuesAuto_type, clearValuesAuto_cv]
  by_cases h : s.type = NodeType.terminal
  · simp [h]
  · simp [h]

theorem requestAuto_logs_reset (mode : CalcMode) (t : TreeNode)
    (logs0 : List CalculationLog)
    (hmode : mode = CalcMode.edit ∨ mode = CalcMode.auto) :
    (requestAutoModel mode t logs0).2.1
      = autoSolveLogs (clearValuesAuto t) := by
  show (autoPrepare mode t logs0).2
      ++ (autoSolveNode (autoPrepare mode t logs0).1).2.1 = _
  rw [autoPrepare, if_pos hmode]
  exact List.nil_append _

theorem requestAuto_delays_reset (mode : CalcMode) (t : TreeNode)
    (logs0 : List CalculationLog)
    (hmode : mode = CalcMode.edit ∨ mode = CalcMode.auto) :
    (requestAutoModel mode t logs0).2.2
      = autoSolveDelays (clearValuesAuto t) := by
  show (autoSolveNode (autoPrepare mode t logs0).1).2.2 = _
  rw [autoPrepare, if_pos hmode]
  rfl

/-- C3: (a) on the Scenario B tree, a completed `requestAuto` run from Edit
logs exactly the two Chance nodes and then the Decision root, in that
order — three entries, none for any Terminal leaf; (b) in general, on a
full replay entered from Edit or Solved, no Terminal node ever receives a
log entry, there is exactly one pacing delay per log entry (Terminal
assignments wait for none), and — on a tree with unique ids — every
internal node receives exactly one log entry. -/
theorem C3_requestAuto_logs :
    ((((requestAutoModel CalcMode.edit scnB []).2.1).map
        (fun e => (e.nodeId, e.nodeType))
      = [("c1", NodeType.chance), ("c2", NodeType.chance),
         ("root", NodeType.decision)])
     ∧ ((requestAutoModel CalcMode.edit scnB []).2.1).length = 3)
    ∧ ∀ (mode : CalcMode) (t : TreeNode) (logs0 : List CalculationLog),
        mode = CalcMode.edit ∨ mode = CalcMode.auto → UniqueIds t →
        (∀ e ∈ (requestAutoModel mode t logs0).2.1,
          e.nodeType ≠ NodeType.terminal)
        ∧ (requestAutoModel mode t logs0).2.2
            = ((requestAutoModel mode t logs0).2.1).length
        ∧ ∀ n ∈ flattenTreePostOrder t, n.type ≠ NodeType.terminal →
            (((requestAutoModel mode t logs0).2.1).filter
              (fun e => e.nodeId == n.id)).length = 1 := by
  constructor
  · constructor
    · rfl
    · rfl
  · intro mode t logs0 hmode huniq
    have hL := requestAuto_logs_reset mode t logs0 hmode
    have hproj := autoSolveLogs_proj (clearValuesAuto t)
    refine ⟨?_, ?_, ?_⟩
    · intro e he
      rw [hL] at he
      have : (e.nodeId, e.nodeType)
          ∈ (autoSolveLogs (clearValuesAuto t)).map
              (fun e => (e.nodeId, e.nodeType)) :=
        List.mem_map_of_mem _ he
      rw [hproj] at this
      obtain ⟨m, hm, hpr⟩ := List.mem_map.mp this
      have hawait := (List.mem_filter.mp hm).2
      rw [awaitingEval] at hawait
      have : m.type ≠ NodeType.terminal := by
        by_cases hmt : m.type = NodeType.terminal
        · rw [hmt] at hawait
          simp at hawait
        · exact hmt
      have hty : m.type = e.nodeType := congrArg Prod.snd hpr
      rw [← hty]
      exact this
    · rw [requestAuto_delays_reset mode t logs0 hmode, hL]
      exact autoSolveDelays_eq_length _
    · intro n hn hnterm
      rw [hL]
      rw [← List.countP_eq_length_filter]
      have hcount : (autoSolveLogs (clearValuesAuto t)).countP
            (fun e => e.nodeId == n.id)
          = ((autoSolveLogs (clearValuesAuto t)).map
              (fun e => (e.nodeId, e.nodeType))).countP
                (fun pr => pr.1 == n.id) := by
        rw [List.countP_map]
        rfl
      rw [hcount, hproj]
      rw [flatten_map clearValuesAuto clearValuesAuto_children t]
      rw [List.filter_map]
      have hfc : (flattenTreePostOrder t).filter (awaitingEval ∘ clearValuesAuto)
          = (flattenTreePostOrder t).filter
              (fun s => decide (s.type ≠ NodeType.terminal)) :=
        List.filter_congr (fun s _ => awaitingEval_clearAuto s)
      rw [hfc, List.map_map, List.countP_map]
      have hpe : ((fun pr => pr.1 == n.id)
            ∘ ((fun m => (m.id, m.type)) ∘ clearValuesAuto))
          = fun s => (clearValuesAuto s).id == n.id := rfl
      rw [hpe]
      have hcg : ((flattenTreePostOrder t).filter
            (fun s => decide (s.type ≠ NodeType.terminal))).countP
              (fun s => (clearValuesAuto s).id == n.id)
          = ((flattenTreePostOrder t).filter
              (fun s => decide (s.type ≠ NodeType.terminal))).countP
                (fun s => s.id == n.id) :=
        List.countP_congr (fun s _ => by rw [clearValuesAuto_id])
      rw [hcg]
      have : ((flattenTreePostOrder t).filter
            (fun s => decide (s.type ≠ NodeType.terminal))).countP
              (fun s => s.id == n.id)
          = (((flattenTreePostOrder t).filter
              (fun s => decide (s.type ≠ NodeType.terminal))).map
                TreeNode.id).count n.id := by
        rw [List.count, List.countP_map]
        rfl
      rw [this]
      apply List.count_eq_one_of_mem
      · exact List.Nodup.sublist
          (List.Sublist.map TreeNode.id (List.filter_sublist _)) huniq
      · exact List.mem_map_of_mem _
          (List.mem_filter.mpr ⟨hn, by simpa using hnterm⟩)

/-- Witness for `C3_requestAuto_logs`' general clause: the Scenario B tree
run from Edit. -/
theorem C3_requestAuto_logs_witness :
    (∀ e ∈ (requestAutoModel CalcMode.edit scnB []).2.1,
      e.nodeType ≠ NodeType.terminal)
    ∧ (requestAutoModel CalcMode.edit scnB []).2.2
        = ((requestAutoModel CalcMode.edit scnB []).2.1).length
    ∧ ∀ n ∈ flattenTreePostOrder scnB, n.type ≠ NodeType.terminal →
        (((requestAutoModel CalcMode.edit scnB []).2.1).filter
          (fun e => e.nodeId == n.id)).length = 1 :=
  C3_requestAuto_logs.2 CalcMode.edit scnB [] (Or.inl rfl)
    (by show ((flattenTreePostOrder scnB).map TreeNode.id).Nodup; decide)

/-! ### C7: decision optimality after a full solve -/
theorem getPath_mem {t s : TreeNode} (p : List Nat)
    (h : getPath t p = some s) : s ∈ flattenTreePostOrder t := by
  induction p generalizing t with
  | nil =>
      simp only [getPath_nil, Option.some_inj] at h
      rw [← h]
      exact self_mem_flatten t
  | cons i q ih =>
      rw [getPath_cons] at h
      cases hci : t.children[i]? with
      | none => rw [hci] at h; simp at h
      | some c =>
          rw [hci] at h
          exact mem_flatten_of_mem_child (List.getElem?_mem hci) (ih h)

theorem flatten_trans {a b t : TreeNode} (hab : a ∈ flattenTreePostOrder b)
    (hbt : b ∈ flattenTreePostOrder t) : a ∈ flattenTreePostOrder t := by
  induction t using tree_induction with
  | h d cs ih =>
      rw [flattenTreePostOrder_def] at hbt
      rcases List.mem_append.mp hbt with hb | hb
      · obtain ⟨c, hc, hbc⟩ := mem_flattenList.mp hb
        exact mem_flatten_of_mem_child (t := node d cs) (by simpa using hc)
          (ih c hc hbc)
      · have : b = node d cs := by simpa using hb
        rw [← this]
        exact hab

theorem NTC_map {F : TreeNode → TreeNode}
    (hFc : ∀ t, (F t).children = t.children.map F)
    (hFt : ∀ t, (F t).type = t.type) {t : TreeNode}
    (h : NoTerminalChildren t) : NoTerminalChildren (F t) := by
  intro s' hs' hterm
  obtain ⟨s, hs, rfl⟩ := (mem_flatten_map hFc).mp hs'
  rw [hFt] at hterm
  rw [hFc, h s hs hterm]
  rfl

theorem TVD_map {F : TreeNode → TreeNode}
    (hFc : ∀ t, (F t).children = t.children.map F)
    (hFt : ∀ t, (F t).type = t.type)
    (hFv : ∀ t, (F t).value = t.value) {t : TreeNode}
    (h : TerminalValuesDefined t) : TerminalValuesDefined (F t) := by
  intro s' hs' hterm
  obtain ⟨s, hs, rfl⟩ := (mem_flatten_map hFc).mp hs'
  rw [hFt] at hterm
  rw [hFv]
  exact h s hs hterm

theorem clearAuto_IU (t : TreeNode) :
    InternalUncalculated (clearValuesAuto t) := by
  intro s' hs' hterm
  obtain ⟨s, hs, rfl⟩ :=
    (mem_flatten_map clearValuesAuto_children).mp hs'
  rw [clearValuesAuto_type] at hterm
  rw [clearValuesAuto_cv, if_neg hterm]

theorem calculateNodeEMV_decision {d : NodeData} {cs : List TreeNode}
    (hd : d.type = NodeType.decision) (hcs : cs ≠ []) :
    calculateNodeEMV (node d cs)
      = ((cs.map (fun c => c.calculatedValue.getD 0)).maximum).unbot' 0 := by
  rw [calculateNodeEMV]
  rw [if_neg (by simp [hd]), if_neg (by simpa using hcs),
    if_pos (by simpa using hd)]
  cases cs with
  | nil => exact absurd rfl hcs
  | cons c cs0 =>
      simp only [TreeNode.children_node, List.map_cons]
      exact foldl_max_eq_maximum _ _

theorem autoSolveTree_cv_isSome {s0 : TreeNode}
    (hval : s0.type = NodeType.terminal → s0.value.isSome) :
    (autoSolveTree s0).calculatedValue.isSome := by
  by_cases hterm : s0.type = NodeType.terminal
  · rw [autoSolveTree_cv_terminal hterm]
    exact hval hterm
  · by_cases hcv : s0.calculatedValue.isSome
    · rw [autoSolveTree_cv_skip hterm hcv]
      exact hcv
    · cases s0 with
      | node d cs =>
          have hterm' : d.type ≠ NodeType.terminal := by simpa using hterm
          have hcv' : d.calculatedValue = none := by
            simpa using Option.not_isSome_iff_eq_none.mp hcv
          rw [autoSolveTree_cv_eval hterm' hcv']
          rfl

/-- The solved subtree of a Decision node attains its value at some child:
on a tree in the just-reset state with Terminal values present, every
Decision node of `autoSolveTree u` with a non-empty children list has a
child whose `calculatedValue` equals its own. -/
theorem autoSolve_decision_attained {u : TreeNode}
    (hIU : InternalUncalculated u) (hTV : TerminalValuesDefined u)
    {m : TreeNode} (hm : m ∈ flattenTreePostOrder (autoSolveTree u))
    (hdec : m.type = NodeType.decision) (hch : m.children ≠ []) :
    ∃ c ∈ m.children, c.calculatedValue = m.calculatedValue := by
  obtain ⟨m0, hm0, rfl⟩ :=
    (mem_flatten_map autoSolveTree_children').mp hm
  rw [autoSolveTree_type] at hdec
  cases m0 with
  | node d cs =>
      have hdt : d.type = NodeType.decision := hdec
      have hterm : d.type ≠ NodeType.terminal := by
        rw [hdt]; exact fun hcontra => by cases hcontra
      have hcv0 : d.calculatedValue = none := by
        have := hIU (node d cs) hm0 (by simpa using hterm)
        simpa using this
      have hcs : cs ≠ [] := by
        intro hnil
        rw [autoSolveTree_children'] at hch
        simp [hnil] at hch
      rw [autoSolveTree_children']
      simp only [TreeNode.children_node]
      rw [autoSolveTree_cv_eval hterm hcv0]
      rw [calculateNodeEMV_decision hdt (by simpa using hcs)]
      set cs' := cs.map autoSolveTree with hcs'
      have hne : cs'.map (fun c => c.calculatedValue.getD 0) ≠ [] := by
        simp [hcs']
        exact hcs
      obtain ⟨w, hw⟩ : ∃ w : ℚ,
          (cs'.map (fun c => c.calculatedValue.getD 0)).maximum
            = (w : WithBot ℚ) := by
        cases hmax : (cs'.map (fun c => c.calculatedValue.getD 0)).maximum with
        | bot => exact absurd (List.maximum_eq_bot.mp hmax) hne
        | coe w => exact ⟨w, rfl⟩
      obtain ⟨x, hx, hxw⟩ :=
        List.mem_map.mp (List.maximum_mem hw)
      refine ⟨x, hx, ?_⟩
      have hxsome : x.calculatedValue.isSome := by
        obtain ⟨c0, hc0, rfl⟩ := List.mem_map.mp hx
        exact autoSolveTree_cv_isSome
          (fun hct => hTV c0
            (flatten_trans
              (self_mem_flatten c0)
              (flatten_trans
                (mem_flatten_of_mem_child (t := node d cs) (by simpa using hc0)
                  (self_mem_flatten c0))
                hm0))
            hct)
      obtain ⟨xv, hxv⟩ := Option.isSome_iff_exists.mp hxsome
      rw [hxv] at hxw ⊢
      simp only [Option.getD_some] at hxw
      rw [hw]
      rw [show WithBot.unbot' 0 ((w : ℚ) : WithBot ℚ) = w from rfl]
      rw [hxw]

/-- C7 fails as stated on a childless Decision node: the evaluator's
documented degenerate case assigns it `calculatedValue = 0`, and with no
children there is no child attaining the value. -/
theorem C7_counterexample : ¬ claimC7Statement := by
  intro h
  obtain ⟨c, hc, _⟩ := h exC7 [] ((requestAutoModel CalcMode.edit exC7 []).1)
    rfl rfl 0 rfl
  have : (requestAutoModel CalcMode.edit exC7 []).1.children = [] := rfl
  rw [this] at hc
  cases hc

/-- C7 (amended, as the counterexample forces): after a full `requestAuto`
evaluation from Edit followed by `markOptimalPath`, every Decision node
**with at least one child** and `calculatedValue = v` has at least one
child with `calculatedValue = v` and `isOptimal = true` — on trees whose
Terminal nodes are childless and carry a value. -/
theorem C7_decision_optimality_amended (t : TreeNode)
    (hNTC : NoTerminalChildren t) (hTV : TerminalValuesDefined t)
    (p : List Nat) (s : TreeNode)
    (h : getPath (requestAutoModel CalcMode.edit t []).1 p = some s)
    (hdec : s.type = NodeType.decision) (hch : s.children ≠ [])
    (v : ℚ) (hv : s.calculatedValue = some v) :
    ∃ c ∈ s.children, c.calculatedValue = some v ∧ c.isOptimal = some true := by
  have hreq : (requestAutoModel CalcMode.edit t []).1
      = markOptimalPath (autoSolveTree (clearValuesAuto t)) := rfl
  rw [hreq] at h
  set u := autoSolveTree (clearValuesAuto t) with hu
  have hNTCu : NoTerminalChildren u := by
    rw [hu]
    exact NTC_map autoSolveTree_children' autoSolveTree_type
      (NTC_map clearValuesAuto_children clearValuesAuto_type hNTC)
  obtain ⟨m, hmp, hrel⟩ := getPath_mark_surj hNTCu p h
  have hmmem : m ∈ flattenTreePostOrder u := getPath_mem p hmp
  have hsch : s.children = (markOptimalPath m).children := by
    rcases hrel with rfl | ⟨b, rfl⟩
    · rfl
    · rw [setIsOptimal_children]
  have hsty : s.type = m.type := by
    rcases hrel with rfl | ⟨b, rfl⟩
    · exact markOptimalPath_type m
    · rw [setIsOptimal_type]; exact markOptimalPath_type m
  have hscv : s.calculatedValue = m.calculatedValue := by
    rcases hrel with rfl | ⟨b, rfl⟩
    · exact markOptimalPath_calculatedValue m
    · rw [setIsOptimal_calculatedValue]
      exact markOptimalPath_calculatedValue m
  have hmdec : m.type = NodeType.decision := by rw [← hsty]; exact hdec
  have hmcv : m.calculatedValue = some v := by rw [← hscv]; exact hv
  have hmch : m.children ≠ [] := by
    intro hnil
    apply hch
    rw [hsch]
    cases m with
    | node dm csm =>
        have : csm = [] := by simpa using hnil
        subst this
        rw [markOptimalPath_term_or_empty (Or.inr rfl)]
        rfl
  obtain ⟨c, hcmem, hccv⟩ := autoSolve_decision_attained (clearAuto_IU t)
    (TVD_map clearValuesAuto_children clearValuesAuto_type
      clearValuesAuto_value hTV) hmmem hmdec hmch
  rw [hmcv] at hccv
  cases m with
  | node dm csm =>
      have hdmt : dm.type = NodeType.decision := hmdec
      have hdmcv : dm.calculatedValue = some v := hmcv
      rw [hsch, markOptimalPath_decision_some hdmt (by simpa using hmch) hdmcv]
      simp only [TreeNode.children_node] at hcmem ⊢
      refine ⟨setIsOptimal
        (some (decide (abs ((markOptimalPath c).calculatedValue.getD 0 - v)
          < optTolerance))) (markOptimalPath c), ?_, ?_, ?_⟩
      · exact List.mem_map_of_mem _ (List.mem_map_of_mem _ hcmem)
      · rw [setIsOptimal_calculatedValue, markOptimalPath_calculatedValue]
        exact hccv
      · rw [setIsOptimal_isOptimal, markOptimalPath_calculatedValue, hccv]
        simp only [Option.getD_some, sub_self, abs_zero]
        rw [decide_eq_true (show (0 : ℚ) < optTolerance by
          rw [optTolerance]; norm_num)]

/-- Witness for `C7_decision_optimality_amended`: the one-child Decision
tree after a full solve has its child flagged optimal at the root value. -/
theorem C7_decision_optimality_amended_witness :
    ∃ c ∈ ((requestAutoModel CalcMode.edit exW7 []).1).children,
      c.calculatedValue = some 5 ∧ c.isOptimal = some true :=
  C7_decision_optimality_amended exW7
    (by
      intro s hs hterm
      have hfl : flattenTreePostOrder exW7 = [exW7t, exW7] := rfl
      rw [hfl] at hs
      simp only [List.mem_cons, List.not_mem_nil, or_false] at hs
      rcases hs with rfl | rfl
      · rfl
      · exact absurd hterm (by decide))
    (by
      intro s hs hterm
      have hfl : flattenTreePostOrder exW7 = [exW7t, exW7] := rfl
      rw [hfl] at hs
      simp only [List.mem_cons, List.not_mem_nil, or_false] at hs
      rcases hs with rfl | rfl <;> rfl)
    [] ((requestAutoModel CalcMode.edit exW7 []).1) rfl rfl
    (by
      intro hnil
      have h2 : ((requestAutoModel CalcMode.edit exW7 []).1).children.length = 1 :=
        rfl
      rw [hnil] at h2
      cases h2)
    5 rfl

theorem prog_append (y0 : ℚ) (a b : Nat) :
    (List.range a).map (fun k : ℕ => y0 + (k : ℚ) * VERTICAL_SPACING)
      ++ (List.range b).map
          (fun k : ℕ => (y0 + (a : ℚ) * VERTICAL_SPACING) + (k : ℚ) * VERTICAL_SPACING)
    = (List.range (a + b)).map (fun k : ℕ => y0 + (k : ℚ) * VERTICAL_SPACING) := by
  rw [List.range_add, List.map_append, List.map_map]
  congr 1
  apply List.map_congr_left
  intro k _
  show y0 + (a : ℚ) * VERTICAL_SPACING + (k : ℚ) * VERTICAL_SPACING
    = y0 + ((a + k : ℕ) : ℚ) * VERTICAL_SPACING
  push_cast
  ring

theorem layoutList_length (cs : List TreeNode) (depth : Nat) (y0 : ℚ) :
    (layoutList cs depth y0).1.length = cs.length := by
  induction cs generalizing y0 with
  | nil => rfl
  | cons c cs0 ih =>
      rw [layoutList]
      show ((calculateLayout c depth y0).1
        :: (layoutList cs0 depth (calculateLayout c depth y0).2).1).length = _
      rw [List.length_cons, ih]
      rfl

theorem layout_spec_list (cs : List TreeNode) (depth : Nat) (y0 : ℚ)
    (ih : ∀ c ∈ cs, ∀ (dep : Nat) (y1 : ℚ),
      XOk (calculateLayout c dep y1).1 dep
      ∧ MidOk (calculateLayout c dep y1).1
      ∧ (leavesOf (calculateLayout c dep y1).1).map LayoutNode.y
          = (List.range (numLeaves c)).map
              (fun k : ℕ => y1 + (k : ℚ) * VERTICAL_SPACING)
      ∧ (calculateLayout c dep y1).2
          = y1 + (numLeaves c : ℚ) * VERTICAL_SPACING) :
    XOkList (layoutList cs depth y0).1 depth
    ∧ MidOkList (layoutList cs depth y0).1
    ∧ (leavesList (layoutList cs depth y0).1).map LayoutNode.y
        = (List.range (numLeavesList cs)).map
            (fun k : ℕ => y0 + (k : ℚ) * VERTICAL_SPACING)
    ∧ (layoutList cs depth y0).2
        = y0 + (numLeavesList cs : ℚ) * VERTICAL_SPACING := by
  induction cs generalizing y0 with
  | nil =>
      refine ⟨trivial, trivial, rfl, ?_⟩
      show y0 = y0 + ((0 : ℕ) : ℚ) * VERTICAL_SPACING
      push_cast
      ring
  | cons c cs0 ihl =>
      obtain ⟨hx1, hm1, hl1, hy1⟩ := ih c (by simp) depth y0
      obtain ⟨hx2, hm2, hl2, hy2⟩ :=
        ihl (calculateLayout c depth y0).2 (fun c' hc' => ih c' (by simp [hc']))
      rw [layoutList]
      show XOkList ((calculateLayout c depth y0).1
          :: (layoutList cs0 depth (calculateLayout c depth y0).2).1) depth ∧ _
      refine ⟨⟨hx1, hx2⟩, ⟨hm1, hm2⟩, ?_, ?_⟩
      · show (leavesOf (calculateLayout c depth y0).1
          ++ leavesList (layoutList cs0 depth (calculateLayout c depth y0).2).1).map
            LayoutNode.y = _
        rw [List.map_append, hl1, hl2, hy1]
        rw [numLeavesList]
        exact prog_append y0 (numLeaves c) (numLeavesList cs0)
      · show (layoutList cs0 depth (calculateLayout c depth y0).2).2 = _
        rw [hy2, hy1, numLeavesList]
        push_cast
        ring

/-- C8: the layout assigns every node `x = depth × HORIZONTAL_SPACING`
(children one level deeper); the leaves receive the vertical slots
`y0, y0 + VERTICAL_SPACING, y0 + 2·VERTICAL_SPACING, …` in left-to-right
depth-first order (strictly increasing, consecutive leaves exactly one
spacing apart), the threaded counter ending at
`y0 + numLeaves · VERTICAL_SPACING`; and every internal node sits at the
midpoint of its first and last child's vertical coordinate. -/
theorem C8_layout_correct (t : TreeNode) (depth : Nat) (y0 : ℚ) :
    XOk (calculateLayout t depth y0).1 depth
    ∧ MidOk (calculateLayout t depth y0).1
    ∧ (leavesOf (calculateLayout t depth y0).1).map LayoutNode.y
        = (List.range (numLeaves t)).map
            (fun k : ℕ => y0 + (k : ℚ) * VERTICAL_SPACING)
    ∧ ((leavesOf (calculateLayout t depth y0).1).map LayoutNode.y).Pairwise (· < ·)
    ∧ (calculateLayout t depth y0).2
        = y0 + (numLeaves t : ℚ) * VERTICAL_SPACING := by
  revert depth y0
  induction t using tree_induction with
  | h d cs ih =>
      intro depth y0
      have main : XOk (calculateLayout (node d cs) depth y0).1 depth
          ∧ MidOk (calculateLayout (node d cs) depth y0).1
          ∧ (leavesOf (calculateLayout (node d cs) depth y0).1).map LayoutNode.y
              = (List.range (numLeaves (node d cs))).map
                  (fun k : ℕ => y0 + (k : ℚ) * VERTICAL_SPACING)
          ∧ (calculateLayout (node d cs) depth y0).2
              = y0 + (numLeaves (node d cs) : ℚ) * VERTICAL_SPACING := by
        cases hcs : cs with
        | nil =>
            subst hcs
            refine ⟨⟨rfl, trivial⟩, ⟨fun hne => absurd rfl hne, trivial⟩, ?_, ?_⟩
            · show [y0] = (List.range 1).map
                (fun k : ℕ => y0 + (k : ℚ) * VERTICAL_SPACING)
              rw [show List.range 1 = [0] from rfl, List.map_cons, List.map_nil]
              norm_num
            · show y0 + VERTICAL_SPACING
                = y0 + ((1 : ℕ) : ℚ) * VERTICAL_SPACING
              push_cast
              ring
        | cons c0 cs0 =>
            subst hcs
            have hlist := layout_spec_list (c0 :: cs0) (depth + 1) y0
              (fun c' hc' dep y1 =>
                (fun h => ⟨h.1, h.2.1, h.2.2.1, h.2.2.2.2⟩)
                  (ih c' hc' dep y1))
            obtain ⟨hx, hm, hl, hy⟩ := hlist
            have hlay : calculateLayout (node d (c0 :: cs0)) depth y0
                = (LayoutNode.node (node d (c0 :: cs0))
                    ((depth : ℚ) * HORIZONTAL_SPACING)
                    (((layoutList (c0 :: cs0) (depth + 1) y0).1.headI.y
                      + (layoutList (c0 :: cs0) (depth + 1) y0).1.getLastI.y) / 2)
                    (layoutList (c0 :: cs0) (depth + 1) y0).1,
                  (layoutList (c0 :: cs0) (depth + 1) y0).2) := by
              rw [calculateLayout]
              rfl
            rw [hlay]
            have hne : (layoutList (c0 :: cs0) (depth + 1) y0).1 ≠ [] := by
              intro hnil
              have := layoutList_length (c0 :: cs0) (depth + 1) y0
              rw [hnil] at this
              cases this
            refine ⟨⟨rfl, hx⟩, ⟨fun _ => rfl, hm⟩, ?_, ?_⟩
            · show (leavesOf (LayoutNode.node (node d (c0 :: cs0)) _ _
                (layoutList (c0 :: cs0) (depth + 1) y0).1)).map LayoutNode.y = _
              rw [leavesOf]
              rw [if_neg (by simpa using hne)]
              rw [hl]
              rw [show numLeaves (node d (c0 :: cs0))
                = numLeavesList (c0 :: cs0) from rfl]
            · show (layoutList (c0 :: cs0) (depth + 1) y0).2 = _
              rw [hy]
              rw [show numLeaves (node d (c0 :: cs0))
                = numLeavesList (c0 :: cs0) from rfl]
      refine ⟨main.1, main.2.1, main.2.2.1, ?_, main.2.2.2⟩
      rw [main.2.2.1]
      have hmono : ∀ a b : ℕ, a < b →
          y0 + (a : ℚ) * VERTICAL_SPACING < y0 + (b : ℚ) * VERTICAL_SPACING := by
        intro a b hab
        have : (a : ℚ) < (b : ℚ) := by exact_mod_cast hab
        have hV : (0 : ℚ) < VERTICAL_SPACING := by
          rw [VERTICAL_SPACING]; norm_num
        nlinarith
      exact List.Pairwise.map _ (fun a b hab => hmono a b hab)
        (List.pairwise_lt_range _)

/-! ### C10: `requestAuto` entered from the Stepping state -/
theorem setIsOptimal_flatten_proj (b : Option Bool) (m : TreeNode) :
    (flattenTreePostOrder (setIsOptimal b m)).map
        (fun s => (s.id, s.calculatedValue))
      = (flattenTreePostOrder m).map (fun s => (s.id, s.calculatedValue)) := by
  cases m with
  | node d cs =>
      rw [show setIsOptimal b (node d cs)
        = node { d with isOptimal := b } cs from rfl]
      rw [flattenTreePostOrder_def, flattenTreePostOrder_def (node d cs)]
      simp only [TreeNode.children_node]
      rw [List.map_append, List.map_append]
      rfl

theorem mark_flattenList_proj (cs : List TreeNode)
    (ih : ∀ c ∈ cs,
      (flattenTreePostOrder (markOptimalPath c)).map
          (fun s => (s.id, s.calculatedValue))
        = (flattenTreePostOrder c).map (fun s => (s.id, s.calculatedValue)))
    (g : TreeNode → TreeNode)
    (hg : ∀ c, (flattenTreePostOrder (g c)).map
        (fun s => (s.id, s.calculatedValue))
      = (flattenTreePostOrder (markOptimalPath c)).map
          (fun s => (s.id, s.calculatedValue))) :
    (flattenList (cs.map g)).map (fun s => (s.id, s.calculatedValue))
      = (flattenList cs).map (fun s => (s.id, s.calculatedValue)) := by
  induction cs with
  | nil => rfl
  | cons c cs0 ihl =>
      rw [List.map_cons, flattenList, flattenList, List.map_append,
        List.map_append, hg c, ih c (by simp),
        ihl (fun c' hc' => ih c' (by simp [hc']))]

theorem mark_flatten_proj (u : TreeNode) :
    (flattenTreePostOrder (markOptimalPath u)).map
        (fun s => (s.id, s.calculatedValue))
      = (flattenTreePostOrder u).map (fun s => (s.id, s.calculatedValue)) := by
  induction u using tree_induction with
  | h d cs ih =>
      by_cases hte : d.type = NodeType.terminal ∨ cs = []
      · rw [markOptimalPath_term_or_empty hte]
      · push_neg at hte
        obtain ⟨hterm, hcs⟩ := hte
        by_cases hdec : d.type = NodeType.decision ∧ d.calculatedValue.isSome
        · obtain ⟨hd, hcv⟩ := hdec
          obtain ⟨v, hv⟩ := Option.isSome_iff_exists.mp hcv
          rw [markOptimalPath_decision_some hd hcs hv]
          rw [flattenTreePostOrder_def, flattenTreePostOrder_def (node d cs)]
          simp only [TreeNode.children_node]
          rw [List.map_append, List.map_append, List.map_map]
          rw [mark_flattenList_proj cs ih
            ((fun c => setIsOptimal
                (some (decide (abs (c.calculatedValue.getD 0 - v)
                  < optTolerance))) c) ∘ markOptimalPath)
            (fun c => setIsOptimal_flatten_proj _ (markOptimalPath c))]
          rfl
        · have hother : d.type ≠ NodeType.decision ∨ d.calculatedValue = none := by
            by_cases h1 : d.type = NodeType.decision
            · right
              cases h2 : d.calculatedValue with
              | none => rfl
              | some w => exact absurd ⟨h1, by simp [h2]⟩ hdec
            · exact Or.inl h1
          rw [markOptimalPath_other hterm hcs hother]
          rw [flattenTreePostOrder_def, flattenTreePostOrder_def (node d cs)]
          simp only [TreeNode.children_node]
          rw [List.map_append, List.map_append]
          rw [mark_flattenList_proj cs ih markOptimalPath (fun c => rfl)]
          rfl

/-- C10: invoked from the Stepping state, `requestAuto` performs no reset —
the tree and log are carried over unchanged; the new log entries are
exactly one per previously-unevaluated internal node, in post-order, with
no entry for any node that already had a `calculatedValue`; previously
assigned `calculatedValue`s are retained (given the reachable-state fact
that assigned Terminals hold their own value); one pacing delay is spent
per new entry — none for skipped nodes; and finally the optimal path is
marked. -/
theorem C10_requestAuto_from_stepping (t : TreeNode)
    (logs0 : List CalculationLog) (hTC : TerminalConsistent t) :
    autoPrepare CalcMode.step t logs0 = (t, logs0)
    ∧ (requestAutoModel CalcMode.step t logs0).2.1 = logs0 ++ autoSolveLogs t
    ∧ (autoSolveLogs t).map (fun e => (e.nodeId, e.nodeType))
        = ((flattenTreePostOrder t).filter awaitingEval).map
            (fun n => (n.id, n.type))
    ∧ (flattenTreePostOrder (requestAutoModel CalcMode.step t logs0).1).map
          (fun s => (s.id, s.calculatedValue))
        = (flattenTreePostOrder t).map
            (fun s => (s.id, (autoSolveTree s).calculatedValue))
    ∧ (∀ s ∈ flattenTreePostOrder t, s.calculatedValue.isSome →
        (autoSolveTree s).calculatedValue = s.calculatedValue)
    ∧ (requestAutoModel CalcMode.step t logs0).2.2 = (autoSolveLogs t).length
    ∧ (requestAutoModel CalcMode.step t logs0).1
        = markOptimalPath (autoSolveTree t) := by
  have hprep : autoPrepare CalcMode.step t logs0 = (t, logs0) := by
    rw [autoPrepare, if_neg (by decide)]
  refine ⟨hprep, rfl, autoSolveLogs_proj t, ?_, ?_, ?_, rfl⟩
  · have hfinal : (requestAutoModel CalcMode.step t logs0).1
        = markOptimalPath (autoSolveTree t) := rfl
    rw [hfinal, mark_flatten_proj,
      flatten_map autoSolveTree autoSolveTree_children' t, List.map_map]
    apply List.map_congr_left
    intro s _
    show ((autoSolveTree s).id, (autoSolveTree s).calculatedValue) = _
    rw [autoSolveTree_id]
  · intro s _ hsome
    by_cases hterm : s.type = NodeType.terminal
    · rw [autoSolveTree_cv_terminal hterm]
      rcases hTC s (by assumption) hterm with hnone | hval
      · rw [hnone] at hsome
        cases hsome
      · rw [hval]
    · exact autoSolveTree_cv_skip hterm hsome
  · show (autoSolveNode (autoPrepare CalcMode.step t logs0).1).2.2 = _
    rw [hprep]
    exact autoSolveDelays_eq_length t

/-- Witness for `C10_requestAuto_from_stepping` on the partially stepped
example with one prior log entry. -/
theorem C10_requestAuto_from_stepping_witness :
    autoPrepare CalcMode.step exC10 [⟨"T", "leaf", NodeType.terminal, 5⟩]
        = (exC10, [⟨"T", "leaf", NodeType.terminal, 5⟩])
    ∧ (requestAutoModel CalcMode.step exC10
          [⟨"T", "leaf", NodeType.terminal, 5⟩]).2.1
        = [⟨"T", "leaf", NodeType.terminal, 5⟩] ++ autoSolveLogs exC10
    ∧ (autoSolveLogs exC10).map (fun e => (e.nodeId, e.nodeType))
        = ((flattenTreePostOrder exC10).filter awaitingEval).map
            (fun n => (n.id, n.type))
    ∧ (flattenTreePostOrder (requestAutoModel CalcMode.step exC10
          [⟨"T", "leaf", NodeType.terminal, 5⟩]).1).map
          (fun s => (s.id, s.calculatedValue))
        = (flattenTreePostOrder exC10).map
            (fun s => (s.id, (autoSolveTree s).calculatedValue))
    ∧ (∀ s ∈ flattenTreePostOrder exC10, s.calculatedValue.isSome →
        (autoSolveTree s).calculatedValue = s.calculatedValue)
    ∧ (requestAutoModel CalcMode.step exC10
          [⟨"T", "leaf", NodeType.terminal, 5⟩]).2.2
        = (autoSolveLogs exC10).length
    ∧ (requestAutoModel CalcMode.step exC10
          [⟨"T", "leaf", NodeType.terminal, 5⟩]).1
        = markOptimalPath (autoSolveTree exC10) :=
  C10_requestAuto_from_stepping exC10 [⟨"T", "leaf", NodeType.terminal, 5⟩]
    (by
      intro s hs hterm
      have hfl : flattenTreePostOrder exC10
          = [node (mkData "T" NodeType.terminal "leaf" (some 5) none (some 5)
              none) [], exC10] := rfl
      rw [hfl] at hs
      simp only [List.mem_cons, List.not_mem_nil, or_false] at hs
      rcases hs with rfl | rfl
      · exact Or.inr rfl
      · exact absurd hterm (by decide))

/-! ### C9: a single `requestStep` pass -/
theorem forall_flatten_child {t c : TreeNode} (hc : c ∈ t.children)
    {Q : TreeNode → Prop} (h : ∀ s ∈ flattenTreePostOrder t, Q s) :
    ∀ s ∈ flattenTreePostOrder c, Q s :=
  fun s hs => h s (mem_flatten_of_mem_child hc hs)

theorem DC_subtree {t : TreeNode} (hDC : DownClosed t) :
    ∀ s ∈ flattenTreePostOrder t, s.calculatedValue.isSome →
      ∀ x ∈ flattenTreePostOrder s, x.calculatedValue.isSome := by
  intro s hs
  induction s using tree_induction with
  | h d cs ih =>
      intro hcv x hx
      rw [flattenTreePostOrder_def] at hx
      rcases List.mem_append.mp hx with hx | hx
      · obtain ⟨c, hc, hxc⟩ := mem_flattenList.mp hx
        have hcmem : c ∈ flattenTreePostOrder t :=
          flatten_trans (self_mem_flatten c)
            (flatten_trans
              (mem_flatten_of_mem_child (t := node d cs) (by simpa using hc)
                (self_mem_flatten c)) hs)
        have hccv : c.calculatedValue.isSome := hDC (node d cs) hs hcv c hc
        exact ih c hc hcmem hccv x hxc
      · have : x = node d cs := by simpa using hx
        rw [this]
        exact hcv

theorem stepCalcNode_skip {d : NodeData} {cs : List TreeNode} {f : Bool}
    (h : d.calculatedValue.isSome) :
    stepCalcNode (node d cs) f = (node d cs, f, []) := by
  rw [stepCalcNode, if_pos h]

theorem stepCalcNode_terminal {d : NodeData} {cs : List TreeNode} {f : Bool}
    (h1 : ¬ d.calculatedValue.isSome = true) (h2 : d.type = NodeType.terminal) :
    stepCalcNode (node d cs) f
      = (node { d with calculatedValue := d.value } cs, f, []) := by
  rw [stepCalcNode, if_neg h1, if_pos h2]

theorem stepCalcNode_solve {d : NodeData} {cs : List TreeNode} {f : Bool}
    (h1 : ¬ d.calculatedValue.isSome = true) (h2 : ¬ d.type = NodeType.terminal)
    (h3 : (((stepCalcList cs f).1.all fun c => c.calculatedValue.isSome)
        && !(stepCalcList cs f).2.1) = true) :
    stepCalcNode (node d cs) f
      = (node
          { d with
              calculatedValue :=
                some (calculateNodeEMV (node d (stepCalcList cs f).1)) }
          (stepCalcList cs f).1,
         true,
         (stepCalcList cs f).2.2
           ++ [⟨d.id, d.label, d.type,
                calculateNodeEMV (node d (stepCalcList cs f).1)⟩]) := by
  rw [stepCalcNode, if_neg h1, if_neg h2]
  show (if (((stepCalcList cs f).1.all fun c => c.calculatedValue.isSome)
      && !(stepCalcList cs f).2.1) = true then _ else _) = _
  rw [if_pos h3]

theorem stepCalcNode_noSolve {d : NodeData} {cs : List TreeNode} {f : Bool}
    (h1 : ¬ d.calculatedValue.isSome = true) (h2 : ¬ d.type = NodeType.terminal)
    (h3 : ¬ (((stepCalcList cs f).1.all fun c => c.calculatedValue.isSome)
        && !(stepCalcList cs f).2.1) = true) :
    stepCalcNode (node d cs) f
      = (node d (stepCalcList cs f).1, (stepCalcList cs f).2.1,
         (stepCalcList cs f).2.2) := by
  rw [stepCalcNode, if_neg h1, if_neg h2]
  show (if (((stepCalcList cs f).1.all fun c => c.calculatedValue.isSome)
      && !(stepCalcList cs f).2.1) = true then _ else _) = _
  rw [if_neg h3]

theorem stepCalcList_cons (c : TreeNode) (cs : List TreeNode) (f : Bool) :
    stepCalcList (c :: cs) f
      = ((stepCalcNode c f).1 :: (stepCalcList cs (stepCalcNode c f).2.1).1,
         (stepCalcList cs (stepCalcNode c f).2.1).2.1,
         (stepCalcNode c f).2.2
           ++ (stepCalcList cs (stepCalcNode c f).2.1).2.2) := rfl

theorem stepCalc_found_list (cs : List TreeNode)
    (ih : ∀ c ∈ cs, (stepCalcNode c true).2.1 = true
      ∧ (stepCalcNode c true).2.2 = []) :
    (stepCalcList cs true).2.1 = true ∧ (stepCalcList cs true).2.2 = [] := by
  induction cs with
  | nil => exact ⟨rfl, rfl⟩
  | cons c cs0 ihl =>
      obtain ⟨hf1, hl1⟩ := ih c (by simp)
      obtain ⟨hf2, hl2⟩ := ihl (fun c' hc' => ih c' (by simp [hc']))
      rw [stepCalcList_cons, hf1]
      exact ⟨hf2, by rw [hl1, hl2]; rfl⟩

/-- A pass started with `foundNext = true` logs nothing and keeps the flag
set (Terminal assignments may still happen). -/
theorem stepCalc_found (u : TreeNode) :
    (stepCalcNode u true).2.1 = true ∧ (stepCalcNode u true).2.2 = [] := by
  induction u using tree_induction with
  | h d cs ih =>
      by_cases h1 : d.calculatedValue.isSome
      · rw [stepCalcNode_skip h1]
        exact ⟨rfl, rfl⟩
      · by_cases h2 : d.type = NodeType.terminal
        · rw [stepCalcNode_terminal h1 h2]
          exact ⟨rfl, rfl⟩
        · obtain ⟨hf, hl⟩ := stepCalc_found_list cs ih
          rw [stepCalcNode_noSolve h1 h2 (by rw [hf]; simp)]
          exact ⟨hf, hl⟩

theorem stepCalc_found_mono {u : TreeNode} {f : Bool}
    (h : (stepCalcNode u f).2.1 = false) : f = false := by
  cases f with
  | false => rfl
  | true =>
      rw [(stepCalc_found u).1] at h
      cases h

theorem stepCalcList_found_mono {cs : List TreeNode} {f : Bool}
    (h : (stepCalcList cs f).2.1 = false) : f = false := by
  cases f with
  | false => rfl
  | true =>
      rw [(stepCalc_found_list cs (fun c _ => stepCalc_found c)).1] at h
      cases h

theorem stepCalc_terminals_list (cs : List TreeNode)
    (ih : ∀ c ∈ cs, ∀ f : Bool,
      ∀ s ∈ flattenTreePostOrder (stepCalcNode c f).1,
        s.type = NodeType.terminal →
          s.calculatedValue = s.value ∧ s.value.isSome) :
    ∀ f : Bool, ∀ s ∈ flattenList (stepCalcList cs f).1,
      s.type = NodeType.terminal →
        s.calculatedValue = s.value ∧ s.value.isSome := by
  induction cs with
  | nil =>
      intro f s hs
      cases hs
  | cons c cs0 ihl =>
      intro f s hs
      rw [stepCalcList_cons] at hs
      show s.type = NodeType.terminal → _
      rw [show ((stepCalcNode c f).1 :: (stepCalcList cs0 (stepCalcNode c f).2.1).1,
            (stepCalcList cs0 (stepCalcNode c f).2.1).2.1,
            (stepCalcNode c f).2.2
              ++ (stepCalcList cs0 (stepCalcNode c f).2.1).2.2).1
          = (stepCalcNode c f).1 :: (stepCalcList cs0 (stepCalcNode c f).2.1).1
          from rfl] at hs
      rw [flattenList] at hs
      rcases List.mem_append.mp hs with hs | hs
      · exact ih c (by simp) f s hs
      · exact ihl (fun c' hc' => ih c' (by simp [hc'])) _ s hs

/-- After one stepping pass, every Terminal node of the result carries its
own value as `calculatedValue` (on well-formed reachable trees). -/
theorem stepCalc_terminals (u : TreeNode)
    (hNTC : NoTerminalChildren u) (hTV : TerminalValuesDefined u)
    (hDC : DownClosed u) (hTC : TerminalConsistent u) :
    ∀ f : Bool, ∀ s ∈ flattenTreePostOrder (stepCalcNode u f).1,
      s.type = NodeType.terminal →
        s.calculatedValue = s.value ∧ s.value.isSome := by
  induction u using tree_induction with
  | h d cs ih =>
      intro f s hs hterm
      by_cases h1 : d.calculatedValue.isSome
      · rw [stepCalcNode_skip h1] at hs
        have hsome : s.calculatedValue.isSome :=
          DC_subtree hDC (node d cs) (self_mem_flatten _) h1 s hs
        rcases hTC s hs hterm with hnone | hval
        · rw [hnone] at hsome
          cases hsome
        · exact ⟨hval, by rw [← hval]; exact hsome⟩
      · by_cases h2 : d.type = NodeType.terminal
        · have hcs : cs = [] := hNTC (node d cs) (self_mem_flatten _) h2
          subst hcs
          rw [stepCalcNode_terminal h1 h2] at hs
          have hfl : flattenTreePostOrder
              (node { d with calculatedValue := d.value } [])
              = [node { d with calculatedValue := d.value } []] := rfl
          rw [hfl] at hs
          have hseq : s = node { d with calculatedValue := d.value } [] := by
            simpa using hs
          subst hseq
          refine ⟨rfl, ?_⟩
          show d.value.isSome
          exact hTV (node d []) (self_mem_flatten _) h2
        · have hlist := stepCalc_terminals_list cs
            (fun c hc => ih c hc
              (forall_flatten_child (by simpa using hc) hNTC)
              (forall_flatten_child (by simpa using hc) hTV)
              (forall_flatten_child (by simpa using hc) hDC)
              (forall_flatten_child (by simpa using hc) hTC))
          by_cases h3 : (((stepCalcList cs f).1.all
              fun c => c.calculatedValue.isSome) && !(stepCalcList cs f).2.1) = true
          · rw [stepCalcNode_solve h1 h2 h3] at hs
            rw [flattenTreePostOrder_def] at hs
            simp only [TreeNode.children_node] at hs
            rcases List.mem_append.mp hs with hs | hs
            · exact hlist f s hs hterm
            · have hseq : s = node
                  { d with
                      calculatedValue :=
                        some (calculateNodeEMV (node d (stepCalcList cs f).1)) }
                  (stepCalcList cs f).1 := by
                simpa using hs
              rw [hseq] at hterm
              exact absurd hterm h2
          · rw [stepCalcNode_noSolve h1 h2 h3] at hs
            rw [flattenTreePostOrder_def] at hs
            simp only [TreeNode.children_node] at hs
            rcases List.mem_append.mp hs with hs | hs
            · exact hlist f s hs hterm
            · have hseq : s = node d (stepCalcList cs f).1 := by
                simpa using hs
              rw [hseq] at hterm
              exact absurd hterm h2

theorem stepCalc_log_len_list (cs : List TreeNode)
    (ih : ∀ c ∈ cs, (stepCalcNode c false).2.2.length
      = if (stepCalcNode c false).2.1 then 1 else 0) :
    ∀ f : Bool, (stepCalcList cs f).2.2.length
      = if (stepCalcList cs f).2.1 && !f then 1 else 0 := by
  induction cs with
  | nil =>
      intro f
      cases f <;> rfl
  | cons c cs0 ihl =>
      intro f
      rw [stepCalcList_cons]
      dsimp only
      rw [List.length_append]
      cases f with
      | true =>
          obtain ⟨hf1, hl1⟩ := stepCalc_found c
          rw [hl1, hf1]
          obtain ⟨hf2, hl2⟩ :=
            stepCalc_found_list cs0 (fun c' _ => stepCalc_found c')
          rw [hl2, hf2]
          rfl
      | false =>
          cases hfound : (stepCalcNode c false).2.1 with
          | true =>
              obtain ⟨hf2, hl2⟩ :=
                stepCalc_found_list cs0 (fun c' _ => stepCalc_found c')
              rw [hl2, hf2]
              have h1 := ih c (by simp)
              rw [hfound] at h1
              rw [h1]
              rfl
          | false =>
              have h1 := ih c (by simp)
              rw [hfound] at h1
              rw [h1, ihl (fun c' hc' => ih c' (by simp [hc'])) false]
              cases (stepCalcList cs0 false).2.1 <;> rfl

/-- With `foundNext` initially false, the pass logs exactly one entry when
it solves a node and none otherwise. -/
theorem stepCalc_log_len (u : TreeNode) :
    (stepCalcNode u false).2.2.length
      = if (stepCalcNode u false).2.1 then 1 else 0 := by
  induction u using tree_induction with
  | h d cs ih =>
      by_cases h1 : d.calculatedValue.isSome
      · rw [stepCalcNode_skip h1]
        rfl
      · by_cases h2 : d.type = NodeType.terminal
        · rw [stepCalcNode_terminal h1 h2]
          rfl
        · have hlist := stepCalc_log_len_list cs ih false
          by_cases h3 : (((stepCalcList cs false).1.all
              fun c => c.calculatedValue.isSome)
              && !(stepCalcList cs false).2.1) = true
          · rw [stepCalcNode_solve h1 h2 h3]
            show ((stepCalcList cs false).2.2 ++ [_]).length = 1
            rw [List.length_append]
            have hf : (stepCalcList cs false).2.1 = false := by
              have h4 := h3
              simp only [Bool.and_eq_true] at h4
              simpa using h4.2
            rw [hf] at hlist
            simp only [Bool.and_true, Bool.not_false] at hlist
            rw [hlist]
            rfl
          · rw [stepCalcNode_noSolve h1 h2 h3]
            show (stepCalcList cs false).2.2.length = _
            rw [hlist]
            cases (stepCalcList cs false).2.1 <;> rfl

theorem stepCalc_root_cv_some {c : TreeNode}
    (hTVc : TerminalValuesDefined c)
    (hcomplete : (∃ s ∈ flattenTreePostOrder c,
        s.type ≠ NodeType.terminal ∧ s.calculatedValue = none) →
      (stepCalcNode c false).2.1 = true)
    (hfound : (stepCalcNode c false).2.1 = false) :
    (stepCalcNode c false).1.calculatedValue.isSome := by
  cases c with
  | node dc csc =>
      by_cases h1 : dc.calculatedValue.isSome
      · rw [stepCalcNode_skip h1]
        exact h1
      · by_cases h2 : dc.type = NodeType.terminal
        · rw [stepCalcNode_terminal h1 h2]
          show dc.value.isSome
          exact hTVc (node dc csc) (self_mem_flatten _) h2
        · have : (stepCalcNode (node dc csc) false).2.1 = true :=
            hcomplete ⟨node dc csc, self_mem_flatten _, by simpa using h2,
              by simpa using Option.not_isSome_iff_eq_none.mp h1⟩
          rw [this] at hfound
          cases hfound

theorem stepCalc_complete_list (cs : List TreeNode)
    (ih : ∀ c ∈ cs, TerminalValuesDefined c ∧
      ((∃ s ∈ flattenTreePostOrder c,
          s.type ≠ NodeType.terminal ∧ s.calculatedValue = none) →
        (stepCalcNode c false).2.1 = true))
    (hfound : (stepCalcList cs false).2.1 = false) :
    ∀ x ∈ (stepCalcList cs false).1, x.calculatedValue.isSome := by
  induction cs with
  | nil =>
      intro x hx
      cases hx
  | cons c cs0 ihl =>
      rw [stepCalcList_cons] at hfound ⊢
      dsimp only at hfound ⊢
      have hf1 : (stepCalcNode c false).2.1 = false :=
        stepCalcList_found_mono hfound
      rw [hf1] at hfound ⊢
      intro x hx
      rcases List.mem_cons.mp hx with rfl | hx
      · exact stepCalc_root_cv_some (ih c (by simp)).1 (ih c (by simp)).2 hf1
      · exact ihl (fun c' hc' => ih c' (by simp [hc'])) hfound x hx

/-- If some internal node still lacks a `calculatedValue`, the stepping
pass does solve a node (`foundNext` ends true). -/
theorem stepCalc_complete (u : TreeNode)
    (hNTC : NoTerminalChildren u) (hTV : TerminalValuesDefined u)
    (hDC : DownClosed u)
    (hex : ∃ s ∈ flattenTreePostOrder u,
      s.type ≠ NodeType.terminal ∧ s.calculatedValue = none) :
    (stepCalcNode u false).2.1 = true := by
  induction u using tree_induction with
  | h d cs ih =>
      obtain ⟨w, hw, hwterm, hwcv⟩ := hex
      by_cases h1 : d.calculatedValue.isSome
      · have := DC_subtree hDC (node d cs) (self_mem_flatten _) h1 w hw
        rw [hwcv] at this
        cases this
      · by_cases h2 : d.type = NodeType.terminal
        · have hcs : cs = [] := hNTC (node d cs) (self_mem_flatten _) h2
          subst hcs
          have hweq : w = node d [] := by
            have hfl : flattenTreePostOrder (node d []) = [node d []] := rfl
            rw [hfl] at hw
            simpa using hw
          rw [hweq] at hwterm
          exact absurd (by simpa using h2) hwterm
        · cases hf1 : (stepCalcList cs false).2.1 with
          | true =>
              rw [stepCalcNode_noSolve h1 h2 (by rw [hf1]; simp)]
              exact hf1
          | false =>
              have hall : ∀ x ∈ (stepCalcList cs false).1,
                  x.calculatedValue.isSome :=
                stepCalc_complete_list cs
                  (fun c hc =>
                    ⟨forall_flatten_child (by simpa using hc) hTV,
                     fun hexc => ih c hc
                       (forall_flatten_child (by simpa using hc) hNTC)
                       (forall_flatten_child (by simpa using hc) hTV)
                       (forall_flatten_child (by simpa using hc) hDC) hexc⟩)
                  hf1
              rw [stepCalcNode_solve h1 h2
                (by
                  rw [hf1]
                  simp only [Bool.not_false, Bool.and_true, List.all_eq_true]
                  simpa using hall)]

theorem stepCalc_nothing (u : TreeNode)
    (hall : ∀ s ∈ flattenTreePostOrder u,
      s.type ≠ NodeType.terminal → s.calculatedValue.isSome) :
    ∀ f : Bool, (stepCalcNode u f).2.2 = [] := by
  intro f
  cases u with
  | node d cs =>
      by_cases h1 : d.calculatedValue.isSome
      · rw [stepCalcNode_skip h1]
      · by_cases h2 : d.type = NodeType.terminal
        · rw [stepCalcNode_terminal h1 h2]
        · exact absurd
            (hall (node d cs) (self_mem_flatten _) (by simpa using h2)) h1

theorem stepCalc_logs_internal_list (cs : List TreeNode)
    (ih : ∀ c ∈ cs, ∀ f : Bool, ∀ e ∈ (stepCalcNode c f).2.2,
      e.nodeType ≠ NodeType.terminal) :
    ∀ f : Bool, ∀ e ∈ (stepCalcList cs f).2.2,
      e.nodeType ≠ NodeType.terminal := by
  induction cs with
  | nil =>
      intro f e he
      cases he
  | cons c cs0 ihl =>
      intro f e he
      rw [stepCalcList_cons] at he
      dsimp only at he
      rcases List.mem_append.mp he with he | he
      · exact ih c (by simp) f e he
      · exact ihl (fun c' hc' => ih c' (by simp [hc'])) _ e he

theorem stepCalc_logs_internal (u : TreeNode) :
    ∀ f : Bool, ∀ e ∈ (stepCalcNode u f).2.2,
      e.nodeType ≠ NodeType.terminal := by
  induction u using tree_induction with
  | h d cs ih =>
      intro f e he
      by_cases h1 : d.calculatedValue.isSome
      · rw [stepCalcNode_skip h1] at he
        cases he
      · by_cases h2 : d.type = NodeType.terminal
        · rw [stepCalcNode_terminal h1 h2] at he
          cases he
        · by_cases h3 : (((stepCalcList cs f).1.all
              fun c => c.calculatedValue.isSome) && !(stepCalcList cs f).2.1) = true
          · rw [stepCalcNode_solve h1 h2 h3] at he
            dsimp only at he
            rcases List.mem_append.mp he with he | he
            · exact stepCalc_logs_internal_list cs ih f e he
            · have : e = ⟨d.id, d.label, d.type,
                  calculateNodeEMV (node d (stepCalcList cs f).1)⟩ := by
                simpa using he
              rw [this]
              exact h2
          · rw [stepCalcNode_noSolve h1 h2 h3] at he
            exact stepCalc_logs_internal_list cs ih f e he

/-- C9: a single `requestStep` pass assigns `calculatedValue := value` to
every Terminal node of the whole tree (not only under the solved node), so
after the first step all Terminals are evaluated; at the same time exactly
one log entry — for one internal node — is appended whenever an internal
node remained unevaluated, and none otherwise.  Hypotheses are the
data-model invariants plus the reachable-state facts (Terminal values
present, derived values downward closed, assigned Terminals consistent). -/
theorem C9_requestStep_terminals (u : TreeNode)
    (hNTC : NoTerminalChildren u) (hTV : TerminalValuesDefined u)
    (hDC : DownClosed u) (hTC : TerminalConsistent u) :
    (∀ s ∈ flattenTreePostOrder (stepCalcNode u false).1,
      s.type = NodeType.terminal →
        s.calculatedValue = s.value ∧ s.calculatedValue.isSome)
    ∧ ((∃ s ∈ flattenTreePostOrder u,
        s.type ≠ NodeType.terminal ∧ s.calculatedValue = none) →
      (stepCalcNode u false).2.2.length = 1)
    ∧ ((∀ s ∈ flattenTreePostOrder u,
        s.type ≠ NodeType.terminal → s.calculatedValue.isSome) →
      (stepCalcNode u false).2.2 = [])
    ∧ (∀ e ∈ (stepCalcNode u false).2.2, e.nodeType ≠ NodeType.terminal) := by
  refine ⟨?_, ?_, fun h => stepCalc_nothing u h false,
    stepCalc_logs_internal u false⟩
  · intro s hs hterm
    obtain ⟨hcv, hval⟩ := stepCalc_terminals u hNTC hTV hDC hTC false s hs hterm
    exact ⟨hcv, by rw [hcv]; exact hval⟩
  · intro hex
    rw [stepCalc_log_len u, stepCalc_complete u hNTC hTV hDC hex]
    rfl

/-- Witness for `C9_requestStep_terminals` on the partially stepped
example `exC10` (Terminal child evaluated, Decision root not). -/
theorem C9_requestStep_terminals_witness :
    (∀ s ∈ flattenTreePostOrder (stepCalcNode exC10 false).1,
      s.type = NodeType.terminal →
        s.calculatedValue = s.value ∧ s.calculatedValue.isSome)
    ∧ ((∃ s ∈ flattenTreePostOrder exC10,
        s.type ≠ NodeType.terminal ∧ s.calculatedValue = none) →
      (stepCalcNode exC10 false).2.2.length = 1)
    ∧ ((∀ s ∈ flattenTreePostOrder exC10,
        s.type ≠ NodeType.terminal → s.calculatedValue.isSome) →
      (stepCalcNode exC10 false).2.2 = [])
    ∧ (∀ e ∈ (stepCalcNode exC10 false).2.2,
        e.nodeType ≠ NodeType.terminal) := by
  have hfl : flattenTreePostOrder exC10
      = [node (mkData "T" NodeType.terminal "leaf" (some 5) none (some 5) none)
          [], exC10] := rfl
  refine C9_requestStep_terminals exC10 ?_ ?_ ?_ ?_ <;>
    intro s hs <;> rw [hfl] at hs <;>
    simp only [List.mem_cons, List.not_mem_nil, or_false] at hs <;>
    rcases hs with rfl | rfl
  · intro _
    rfl
  · intro hterm
    exact absurd hterm (by decide)
  · intro _
    rfl
  · intro hterm
    exact absurd hterm (by decide)
  · intro _ c hc
    cases hc
  · intro hcv
    exact absurd hcv (by decide)
  · intro _
    exact Or.inr rfl
  · intro hterm
    exact absurd hterm (by decide)

theorem strictSubnodes_subset_flatten {s : TreeNode} :
    ∀ x ∈ strictSubnodes s, x ∈ flattenTreePostOrder s := by
  cases s with
  | node d cs =>
      intro x hx
      rw [flattenTreePostOrder_def]
      exact List.mem_append.mpr (Or.inl hx)

theorem flatten_subset_of_mem {s w : TreeNode}
    (hs : s ∈ flattenTreePostOrder w) :
    ∀ x ∈ flattenTreePostOrder s, x ∈ flattenTreePostOrder w :=
  fun _ hx => flatten_trans hx hs

theorem id_inj {w : TreeNode} (hU : UniqueIds w) {a b : TreeNode}
    (ha : a ∈ flattenTreePostOrder w) (hb : b ∈ flattenTreePostOrder w)
    (hid : a.id = b.id) : a = b :=
  List.inj_on_of_nodup_map hU ha hb hid

theorem uniqueIds_sublist {w : TreeNode} (hU : UniqueIds w)
    {l : List TreeNode} (hl : l.Sublist (flattenTreePostOrder w)) :
    (l.map TreeNode.id).Nodup :=
  List.Nodup.sublist (List.Sublist.map TreeNode.id hl) hU

theorem flatten_sublist_flattenList {c : TreeNode} {cs : List TreeNode}
    (hc : c ∈ cs) :
    (flattenTreePostOrder c).Sublist (flattenList cs) := by
  induction cs with
  | nil => cases hc
  | cons c0 cs0 ih =>
      rw [flattenList]
      rcases List.mem_cons.mp hc with rfl | hc2
      · exact List.sublist_append_left _ _
      · exact List.Sublist.trans (ih hc2) (List.sublist_append_right _ _)

theorem flattenList_sublist_flatten {d : NodeData} {cs : List TreeNode} :
    (flattenList cs).Sublist (flattenTreePostOrder (node d cs)) := by
  rw [flattenTreePostOrder_def]
  exact List.sublist_append_left _ _

theorem uniqueIds_child {w c : TreeNode} (hU : UniqueIds w)
    (hc : c ∈ w.children) : UniqueIds c := by
  cases w with
  | node d cs =>
      exact uniqueIds_sublist hU
        (List.Sublist.trans (flatten_sublist_flattenList (by simpa using hc))
          flattenList_sublist_flatten)

/-- In a tree with unique ids, no node of the post-order flattening is a
strict subnode of a later one. -/
theorem pairwise_not_strictSub (w : TreeNode) (hU : UniqueIds w) :
    (flattenTreePostOrder w).Pairwise
      (fun m n => n ∉ strictSubnodes m) := by
  induction w using tree_induction with
  | h d cs ih =>
      rw [flattenTreePostOrder_def]
      simp only [TreeNode.children_node]
      rw [List.pairwise_append]
      refine ⟨?_, List.pairwise_singleton _ _, ?_⟩
      · have hUcs : ((flattenList cs).map TreeNode.id).Nodup :=
          uniqueIds_sublist hU flattenList_sublist_flatten
        have ihcs : ∀ c ∈ cs, (flattenTreePostOrder c).Pairwise
            (fun m n => n ∉ strictSubnodes m) :=
          fun c hc => ih c hc (uniqueIds_child hU (by simpa using hc))
        clear ih hU
        induction cs with
        | nil => exact List.Pairwise.nil
        | cons c0 cs0 ihl =>
            rw [show flattenList (c0 :: cs0)
              = flattenTreePostOrder c0 ++ flattenList cs0 from rfl] at hUcs ⊢
            rw [List.pairwise_append]
            refine ⟨ihcs c0 (by simp), ?_, ?_⟩
            · exact ihl
                (List.Nodup.sublist
                  (List.Sublist.map _ (List.sublist_append_right _ _)) hUcs)
                (fun c hc => ihcs c (by simp [hc]))
            · intro m hm n hn hcontra
              have hnm : n ∈ flattenTreePostOrder c0 :=
                flatten_trans (strictSubnodes_subset_flatten n hcontra) hm
              have hdisj := List.disjoint_of_nodup_append
                (by rw [List.map_append] at hUcs; exact hUcs)
              exact hdisj (List.mem_map_of_mem TreeNode.id hnm)
                (List.mem_map_of_mem TreeNode.id hn)
      · intro m hm n hn hcontra
        have hn2 : n = node d cs := by simpa using hn
        obtain ⟨c, hc, hmc⟩ := mem_flattenList.mp hm
        have hroot : node d cs ∈ flattenList cs := by
          rw [← hn2]
          exact mem_flattenList.mpr ⟨c, hc,
            flatten_trans (strictSubnodes_subset_flatten n hcontra) hmc⟩
        have hU2 : ((flattenList cs ++ [node d cs]).map TreeNode.id).Nodup := by
          have h3 : flattenTreePostOrder (node d cs)
              = flattenList cs ++ [node d cs] := by
            rw [flattenTreePostOrder_def]
            rfl
          rw [← h3]
          exact hU
        rw [List.map_append] at hU2
        have hdisj := List.disjoint_of_nodup_append hU2
        exact hdisj (List.mem_map_of_mem TreeNode.id hroot) (by simp)

/-- With unique ids, the id-level descendant relation coincides with
membership in the strict subnodes. -/
theorem SDI_iff {w : TreeNode} (hU : UniqueIds w) {x y : TreeNode}
    (hx : x ∈ flattenTreePostOrder w) (hy : y ∈ flattenTreePostOrder w) :
    StrictDescId w y.id x.id ↔ y ∈ strictSubnodes x := by
  constructor
  · rintro ⟨n, hn, hnid, x', hx', hx'id⟩
    have hnx : n = x := id_inj hU hn hx hnid
    subst hnx
    have hx'w : x' ∈ flattenTreePostOrder w :=
      flatten_subset_of_mem hn _ (strictSubnodes_subset_flatten x' hx')
    have : x' = y := id_inj hU hx'w hy hx'id
    rw [← this]
    exact hx'
  · intro hmem
    exact ⟨x, hx, rfl, y, hmem, rfl⟩

/-! ### Erasure maps: which fields each transformation touches -/
theorem flattenList_cons (c : TreeNode) (cs : List TreeNode) :
    flattenList (c :: cs) = flattenTreePostOrder c ++ flattenList cs := rfl

theorem strictSubnodes_eq (t : TreeNode) :
    strictSubnodes t = flattenList t.children := by
  cases t
  rfl

theorem strictSubnodes_map {F : TreeNode → TreeNode}
    (hF : ∀ t, (F t).children = t.children.map F) (t : TreeNode) :
    strictSubnodes (F t) = (strictSubnodes t).map F := by
  rw [strictSubnodes_eq, strictSubnodes_eq, hF,
    flattenList_map F _ (fun c _ => flatten_map F hF c)]

theorem subIds_subset {n : TreeNode} {L : List TreeNode}
    (hn : n ∈ flattenList L) :
    ∀ i ∈ (strictSubnodes n).map TreeNode.id, i ∈ (flattenList L).map TreeNode.id := by
  intro i hi
  obtain ⟨x, hx, hxi⟩ := List.mem_map.mp hi
  obtain ⟨c, hc, hnc⟩ := mem_flattenList.mp hn
  exact List.mem_map.mpr ⟨x, mem_flattenList.mpr
    ⟨c, hc, flatten_trans (strictSubnodes_subset_flatten x hx) hnc⟩, hxi⟩

theorem eraseOptList_eq_map (cs : List TreeNode) :
    eraseOptList cs = cs.map eraseOpt := by
  induction cs with
  | nil => rfl
  | cons c cs ih => rw [eraseOptList, ih, List.map_cons]

theorem eraseOpt_node (d : NodeData) (cs : List TreeNode) :
    eraseOpt (node d cs)
      = node { d with isOptimal := none } (cs.map eraseOpt) := by
  rw [eraseOpt, eraseOptList_eq_map]

theorem eraseOpt_children (t : TreeNode) :
    (eraseOpt t).children = t.children.map eraseOpt := by
  cases t with
  | node d cs => rw [eraseOpt_node]; rfl

theorem eraseOpt_id (t : TreeNode) : (eraseOpt t).id = t.id := by
  cases t with
  | node d cs => rw [eraseOpt_node]; rfl

theorem eraseOpt_cv (t : TreeNode) :
    (eraseOpt t).calculatedValue = t.calculatedValue := by
  cases t with
  | node d cs => rw [eraseOpt_node]; rfl

theorem eraseOpt_setIsOptimal (b : Option Bool) (t : TreeNode) :
    eraseOpt (setIsOptimal b t) = eraseOpt t := by
  cases t with
  | node d cs =>
      rw [show setIsOptimal b (node d cs)
        = node { d with isOptimal := b } cs from rfl]
      rw [eraseOpt_node, eraseOpt_node]

/-- `markOptimalPath` only writes `isOptimal` flags: erasing them undoes it. -/
theorem eraseOpt_mark (u : TreeNode) :
    eraseOpt (markOptimalPath u) = eraseOpt u := by
  induction u using tree_induction with
  | h d cs ih =>
      by_cases hte : d.type = NodeType.terminal ∨ cs = []
      · rw [markOptimalPath_term_or_empty hte]
      · push_neg at hte
        obtain ⟨hterm, hcs⟩ := hte
        by_cases hdec : d.type = NodeType.decision ∧ d.calculatedValue.isSome
        · obtain ⟨hd, hcv⟩ := hdec
          obtain ⟨v, hv⟩ := Option.isSome_iff_exists.mp hcv
          rw [markOptimalPath_decision_some hd hcs hv]
          rw [eraseOpt_node, eraseOpt_node, List.map_map, List.map_map]
          congr 1
          apply List.map_congr_left
          intro c hc
          show eraseOpt (setIsOptimal _ (markOptimalPath c)) = eraseOpt c
          rw [eraseOpt_setIsOptimal]
          exact ih c hc
        · have hother : d.type ≠ NodeType.decision ∨ d.calculatedValue = none := by
            by_cases h1 : d.type = NodeType.decision
            · right
              cases h2 : d.calculatedValue with
              | none => rfl
              | some w => exact absurd ⟨h1, by simp [h2]⟩ hdec
            · exact Or.inl h1
          rw [markOptimalPath_other hterm hcs hother]
          rw [eraseOpt_node, eraseOpt_node, List.map_map]
          congr 1
          apply List.map_congr_left
          intro c hc
          exact ih c hc

theorem clearValuesReset_node (d : NodeData) (cs : List TreeNode) :
    clearValuesReset (node d cs)
      = node { d with calculatedValue := none, isOptimal := none }
          (cs.map clearValuesReset) := by
  rw [clearValuesReset, clearResetList_eq_map]

theorem clearValuesReset_id (t : TreeNode) :
    (clearValuesReset t).id = t.id := by
  cases t with
  | node d cs => rw [clearValuesReset_node]; rfl

theorem clearValuesReset_type (t : TreeNode) :
    (clearValuesReset t).type = t.type := by
  cases t with
  | node d cs => rw [clearValuesReset_node]; rfl

theorem clearValuesReset_cv (t : TreeNode) :
    (clearValuesReset t).calculatedValue = none := by
  cases t with
  | node d cs => rw [clearValuesReset_node]; rfl

theorem flatten_clearReset (t : TreeNode) :
    flattenTreePostOrder (clearValuesReset t)
      = (flattenTreePostOrder t).map clearValuesReset :=
  flatten_map clearValuesReset clearValuesReset_children t

theorem flatten_eraseOpt (t : TreeNode) :
    flattenTreePostOrder (eraseOpt t)
      = (flattenTreePostOrder t).map eraseOpt :=
  flatten_map eraseOpt eraseOpt_children t

theorem clearReset_eraseOpt (t : TreeNode) :
    clearValuesReset (eraseOpt t) = clearValuesReset t := by
  induction t using tree_induction with
  | h d cs ih =>
      rw [eraseOpt_node, clearValuesReset_node, clearValuesReset_node,
        List.map_map]
      congr 1
      apply List.map_congr_left
      intro c hc
      exact ih c hc

theorem clearReset_mark (u : TreeNode) :
    clearValuesReset (markOptimalPath u) = clearValuesReset u := by
  rw [← clearReset_eraseOpt (markOptimalPath u), eraseOpt_mark,
    clearReset_eraseOpt]

theorem clearReset_idem (t : TreeNode) :
    clearValuesReset (clearValuesReset t) = clearValuesReset t := by
  induction t using tree_induction with
  | h d cs ih =>
      rw [clearValuesReset_node d cs, clearValuesReset_node,
        List.map_map]
      congr 1
      apply List.map_congr_left
      intro c hc
      exact ih c hc

theorem shapeEq_flatten {t u : TreeNode} (h : ShapeEq t u) :
    (flattenTreePostOrder u).map clearValuesReset
      = (flattenTreePostOrder t).map clearValuesReset := by
  rw [← flatten_clearReset, ← flatten_clearReset, h]

theorem shapeEq_ids {t u : TreeNode} (h : ShapeEq t u) :
    (flattenTreePostOrder u).map TreeNode.id
      = (flattenTreePostOrder t).map TreeNode.id := by
  have h3 := congrArg (List.map TreeNode.id) (shapeEq_flatten h)
  rw [List.map_map, List.map_map] at h3
  have h4 : ∀ (l : List TreeNode),
      l.map (TreeNode.id ∘ clearValuesReset) = l.map TreeNode.id :=
    fun l => List.map_congr_left (fun x _ => clearValuesReset_id x)
  rw [h4, h4] at h3
  exact h3

theorem shapeEq_uniqueIds {t u : TreeNode} (h : ShapeEq t u)
    (hU : UniqueIds t) : UniqueIds u := by
  show ((flattenTreePostOrder u).map TreeNode.id).Nodup
  rw [shapeEq_ids h]
  exact hU

theorem shapeEq_node_to {t u : TreeNode} (h : ShapeEq t u) {n : TreeNode}
    (hn : n ∈ flattenTreePostOrder t) :
    ∃ m ∈ flattenTreePostOrder u, m.id = n.id ∧ m.type = n.type
      ∧ (strictSubnodes m).map TreeNode.id = (strictSubnodes n).map TreeNode.id
      ∧ (m.children = [] ↔ n.children = []) := by
  have h1 : clearValuesReset n ∈ (flattenTreePostOrder u).map clearValuesReset := by
    rw [shapeEq_flatten h]
    exact List.mem_map_of_mem _ hn
  obtain ⟨m, hm, hme⟩ := List.mem_map.mp h1
  refine ⟨m, hm, ?_, ?_, ?_, ?_⟩
  · rw [← clearValuesReset_id m, hme, clearValuesReset_id]
  · rw [← clearValuesReset_type m, hme, clearValuesReset_type]
  · have h2 := congrArg strictSubnodes hme
    rw [strictSubnodes_map clearValuesReset_children,
      strictSubnodes_map clearValuesReset_children] at h2
    have h3 := congrArg (List.map TreeNode.id) h2
    rw [List.map_map, List.map_map] at h3
    have h4 : ∀ (l : List TreeNode),
        l.map (TreeNode.id ∘ clearValuesReset) = l.map TreeNode.id :=
      fun l => List.map_congr_left (fun x _ => clearValuesReset_id x)
    rw [h4, h4] at h3
    exact h3
  · have h2 := congrArg TreeNode.children hme
    rw [clearValuesReset_children, clearValuesReset_children] at h2
    have hlen := congrArg List.length h2
    simp only [List.length_map] at hlen
    constructor
    · intro h0
      have hz : n.children.length = 0 := by rw [← hlen, h0]; rfl
      exact List.length_eq_zero.mp hz
    · intro h0
      have hz : m.children.length = 0 := by rw [hlen, h0]; rfl
      exact List.length_eq_zero.mp hz

theorem shapeEq_NTC {t u : TreeNode} (h : ShapeEq t u)
    (hN : NoTerminalChildren t) : NoTerminalChildren u := by
  intro s hs hterm
  have hsym : ShapeEq u t := h.symm
  obtain ⟨m, hm, hid, hty, _, hch⟩ := shapeEq_node_to hsym hs
  exact hch.mp (hN m hm (hty.trans hterm))

theorem shapeEq_SDI {t u : TreeNode} (h : ShapeEq t u) {dId nId : String}
    (hs : StrictDescId t dId nId) :
    ∃ m ∈ flattenTreePostOrder u, m.id = nId
      ∧ dId ∈ (strictSubnodes m).map TreeNode.id := by
  obtain ⟨n, hn, hnid, x, hx, hxid⟩ := hs
  obtain ⟨m, hm, hid, _, hsub, _⟩ := shapeEq_node_to h hn
  exact ⟨m, hm, hid.trans hnid, by
    rw [hsub]
    exact List.mem_map.mpr ⟨x, hx, hxid⟩⟩

/-! ### What a stepping pass does and does not change -/
theorem clearReset_stepList (cs : List TreeNode)
    (ih : ∀ c ∈ cs, ∀ f : Bool,
      clearValuesReset (stepCalcNode c f).1 = clearValuesReset c) :
    ∀ f : Bool,
      ((stepCalcList cs f).1).map clearValuesReset = cs.map clearValuesReset := by
  induction cs with
  | nil => intro f; rfl
  | cons c cs0 ihl =>
      intro f
      rw [stepCalcList_cons]
      dsimp only
      rw [List.map_cons, List.map_cons, ih c (by simp) f,
        ihl (fun c' hc' => ih c' (by simp [hc'])) _]

/-- A stepping pass only writes `calculatedValue` fields: resetting the
derived fields undoes it. -/
theorem clearReset_step (u : TreeNode) :
    ∀ f : Bool, clearValuesReset (stepCalcNode u f).1 = clearValuesReset u := by
  induction u using tree_induction with
  | h d cs ih =>
      intro f
      by_cases h1 : d.calculatedValue.isSome
      · rw [stepCalcNode_skip h1]
      · by_cases h2 : d.type = NodeType.terminal
        · rw [stepCalcNode_terminal h1 h2]
          show clearValuesReset (node { d with calculatedValue := d.value } cs)
            = clearValuesReset (node d cs)
          rw [clearValuesReset_node, clearValuesReset_node]
        · by_cases h3 : (((stepCalcList cs f).1.all
              fun c => c.calculatedValue.isSome) && !(stepCalcList cs f).2.1) = true
          · rw [stepCalcNode_solve h1 h2 h3]
            show clearValuesReset (node _ (stepCalcList cs f).1)
              = clearValuesReset (node d cs)
            rw [clearValuesReset_node, clearValuesReset_node,
              clearReset_stepList cs ih f]
          · rw [stepCalcNode_noSolve h1 h2 h3]
            show clearValuesReset (node d (stepCalcList cs f).1)
              = clearValuesReset (node d cs)
            rw [clearValuesReset_node, clearValuesReset_node,
              clearReset_stepList cs ih f]

theorem ids_step (u : TreeNode) (f : Bool) :
    (flattenTreePostOrder (stepCalcNode u f).1).map TreeNode.id
      = (flattenTreePostOrder u).map TreeNode.id :=
  shapeEq_ids (clearReset_step u f)

theorem ids_stepList (cs : List TreeNode) :
    ∀ f : Bool, (flattenList (stepCalcList cs f).1).map TreeNode.id
      = (flattenList cs).map TreeNode.id := by
  induction cs with
  | nil => intro f; rfl
  | cons c cs0 ihl =>
      intro f
      rw [stepCalcList_cons]
      dsimp only
      rw [flattenList_cons, flattenList_cons, List.map_append, List.map_append,
        ids_step c f, ihl _]

theorem stepCalc_log_id_mem_list (cs : List TreeNode)
    (ih : ∀ c ∈ cs, ∀ f : Bool, ∀ e ∈ (stepCalcNode c f).2.2,
      e.nodeId ∈ (flattenTreePostOrder c).map TreeNode.id) :
    ∀ f : Bool, ∀ e ∈ (stepCalcList cs f).2.2,
      e.nodeId ∈ (flattenList cs).map TreeNode.id := by
  induction cs with
  | nil => intro f e he; cases he
  | cons c cs0 ihl =>
      intro f e he
      rw [stepCalcList_cons] at he
      dsimp only at he
      rw [flattenList_cons, List.map_append]
      rcases List.mem_append.mp he with he | he
      · exact List.mem_append.mpr (Or.inl (ih c (by simp) f e he))
      · exact List.mem_append.mpr
          (Or.inr (ihl (fun c' hc' => ih c' (by simp [hc'])) _ e he))

/-- Every log entry produced by a stepping pass names a node of the tree. -/
theorem stepCalc_log_id_mem (u : TreeNode) :
    ∀ f : Bool, ∀ e ∈ (stepCalcNode u f).2.2,
      e.nodeId ∈ (flattenTreePostOrder u).map TreeNode.id := by
  induction u using tree_induction with
  | h d cs ih =>
      intro f e he
      by_cases h1 : d.calculatedValue.isSome
      · rw [stepCalcNode_skip h1] at he
        cases he
      · by_cases h2 : d.type = NodeType.terminal
        · rw [stepCalcNode_terminal h1 h2] at he
          cases he
        · by_cases h3 : (((stepCalcList cs f).1.all
              fun c => c.calculatedValue.isSome) && !(stepCalcList cs f).2.1) = true
          · rw [stepCalcNode_solve h1 h2 h3] at he
            dsimp only at he
            rw [flattenTreePostOrder_def]
            simp only [TreeNode.children_node]
            rw [List.map_append]
            rcases List.mem_append.mp he with he | he
            · exact List.mem_append.mpr
                (Or.inl (stepCalc_log_id_mem_list cs ih f e he))
            · have heq : e = ⟨d.id, d.label, d.type,
                  calculateNodeEMV (node d (stepCalcList cs f).1)⟩ := by
                simpa using he
              refine List.mem_append.mpr (Or.inr ?_)
              rw [heq]
              simp
          · rw [stepCalcNode_noSolve h1 h2 h3] at he
            dsimp only at he
            rw [flattenTreePostOrder_def]
            simp only [TreeNode.children_node]
            rw [List.map_append]
            exact List.mem_append.mpr
              (Or.inl (stepCalc_log_id_mem_list cs ih f e he))

theorem stepCalc_cv_back_list (cs : List TreeNode)
    (ih : ∀ c ∈ cs, ∀ f : Bool,
      ∀ s ∈ flattenTreePostOrder (stepCalcNode c f).1,
        s.calculatedValue = none →
          ∃ n ∈ flattenTreePostOrder c, n.id = s.id ∧ n.calculatedValue = none) :
    ∀ f : Bool, ∀ s ∈ flattenList (stepCalcList cs f).1,
      s.calculatedValue = none →
        ∃ n ∈ flattenList cs, n.id = s.id ∧ n.calculatedValue = none := by
  induction cs with
  | nil => intro f s hs; cases hs
  | cons c cs0 ihl =>
      intro f s hs hnone
      rw [stepCalcList_cons] at hs
      dsimp only at hs
      rw [flattenList_cons] at hs
      rcases List.mem_append.mp hs with hs | hs
      · obtain ⟨n, hn, hid, hcv⟩ := ih c (by simp) f s hs hnone
        exact ⟨n, by rw [flattenList_cons]; exact List.mem_append.mpr (Or.inl hn),
          hid, hcv⟩
      · obtain ⟨n, hn, hid, hcv⟩ :=
          ihl (fun c' hc' => ih c' (by simp [hc'])) _ s hs hnone
        exact ⟨n, by rw [flattenList_cons]; exact List.mem_append.mpr (Or.inr hn),
          hid, hcv⟩

/-- A stepping pass never removes a `calculatedValue`: a node of the result
that still lacks one corresponds to a node of the input (same id) that
already lacked one. -/
theorem stepCalc_cv_back (u : TreeNode) :
    ∀ f : Bool, ∀ s ∈ flattenTreePostOrder (stepCalcNode u f).1,
      s.calculatedValue = none →
        ∃ n ∈ flattenTreePostOrder u, n.id = s.id ∧ n.calculatedValue = none := by
  induction u using tree_induction with
  | h d cs ih =>
      intro f s hs hnone
      by_cases h1 : d.calculatedValue.isSome
      · rw [stepCalcNode_skip h1] at hs
        exact ⟨s, hs, rfl, hnone⟩
      · by_cases h2 : d.type = NodeType.terminal
        · rw [stepCalcNode_terminal h1 h2] at hs
          rw [flattenTreePostOrder_def] at hs
          simp only [TreeNode.children_node] at hs
          rcases List.mem_append.mp hs with hs | hs
          · refine ⟨s, ?_, rfl, hnone⟩
            rw [flattenTreePostOrder_def]
            simp only [TreeNode.children_node]
            exact List.mem_append.mpr (Or.inl hs)
          · have hseq : s = node { d with calculatedValue := d.value } cs := by
              simpa using hs
            refine ⟨node d cs, self_mem_flatten _, by rw [hseq]; rfl,
              Option.not_isSome_iff_eq_none.mp h1⟩
        · by_cases h3 : (((stepCalcList cs f).1.all
              fun c => c.calculatedValue.isSome) && !(stepCalcList cs f).2.1) = true
          · rw [stepCalcNode_solve h1 h2 h3] at hs
            rw [flattenTreePostOrder_def] at hs
            simp only [TreeNode.children_node] at hs
            rcases List.mem_append.mp hs with hs | hs
            · obtain ⟨n, hn, hid, hcv⟩ := stepCalc_cv_back_list cs ih f s hs hnone
              refine ⟨n, ?_, hid, hcv⟩
              rw [flattenTreePostOrder_def]
              simp only [TreeNode.children_node]
              exact List.mem_append.mpr (Or.inl hn)
            · have hseq : s = node
                  { d with
                      calculatedValue :=
                        some (calculateNodeEMV (node d (stepCalcList cs f).1)) }
                  (stepCalcList cs f).1 := by
                simpa using hs
              rw [hseq] at hnone
              exact absurd hnone (by simp)
          · rw [stepCalcNode_noSolve h1 h2 h3] at hs
            rw [flattenTreePostOrder_def] at hs
            simp only [TreeNode.children_node] at hs
            rcases List.mem_append.mp hs with hs | hs
            · obtain ⟨n, hn, hid, hcv⟩ := stepCalc_cv_back_list cs ih f s hs hnone
              refine ⟨n, ?_, hid, hcv⟩
              rw [flattenTreePostOrder_def]
              simp only [TreeNode.children_node]
              exact List.mem_append.mpr (Or.inl hn)
            · have hseq : s = node d (stepCalcList cs f).1 := by
                simpa using hs
              refine ⟨node d cs, self_mem_flatten _, by rw [hseq]; rfl, ?_⟩
              rw [hseq] at hnone
              simpa using hnone

theorem stepCalc_new_cv_list (cs : List TreeNode)
    (ih : ∀ c ∈ cs, ((flattenTreePostOrder c).map TreeNode.id).Nodup →
      ∀ f : Bool, ∀ e ∈ (stepCalcNode c f).2.2,
        ∀ s ∈ flattenTreePostOrder (stepCalcNode c f).1,
          s.id = e.nodeId → s.calculatedValue.isSome)
    (hU : ((flattenList cs).map TreeNode.id).Nodup) :
    ∀ f : Bool, ∀ e ∈ (stepCalcList cs f).2.2,
      ∀ s ∈ flattenList (stepCalcList cs f).1,
        s.id = e.nodeId → s.calculatedValue.isSome := by
  induction cs with
  | nil => intro f e he; cases he
  | cons c cs0 ihl =>
      intro f e he s hs hid
      rw [stepCalcList_cons] at he hs
      dsimp only at he hs
      rw [flattenList_cons] at hs
      rw [flattenList_cons, List.map_append] at hU
      have hUc : ((flattenTreePostOrder c).map TreeNode.id).Nodup :=
        hU.of_append_left
      have hUcs0 : ((flattenList cs0).map TreeNode.id).Nodup :=
        hU.of_append_right
      have hdisj := List.disjoint_of_nodup_append hU
      rcases List.mem_append.mp he with he | he
      · rcases List.mem_append.mp hs with hs | hs
        · exact ih c (by simp) hUc f e he s hs hid
        · exfalso
          have h1 : e.nodeId ∈ (flattenTreePostOrder c).map TreeNode.id :=
            stepCalc_log_id_mem c f e he
          have h2 : s.id ∈ (flattenList cs0).map TreeNode.id := by
            rw [← ids_stepList cs0 _]
            exact List.mem_map_of_mem _ hs
          rw [hid] at h2
          exact hdisj h1 h2
      · rcases List.mem_append.mp hs with hs | hs
        · exfalso
          have h1 : e.nodeId ∈ (flattenList cs0).map TreeNode.id :=
            stepCalc_log_id_mem_list cs0
              (fun c' _ => stepCalc_log_id_mem c') _ e he
          have h2 : s.id ∈ (flattenTreePostOrder c).map TreeNode.id := by
            rw [← ids_step c f]
            exact List.mem_map_of_mem _ hs
          rw [hid] at h2
          exact hdisj h2 h1
        · exact ihl (fun c' hc' => ih c' (by simp [hc'])) hUcs0 _ e he s hs hid

/-- In a tree with unique ids, the node named by a log entry of a stepping
pass carries a `calculatedValue` in the pass's result. -/
theorem stepCalc_new_cv (u : TreeNode)
    (hU : ((flattenTreePostOrder u).map TreeNode.id).Nodup) :
    ∀ f : Bool, ∀ e ∈ (stepCalcNode u f).2.2,
      ∀ s ∈ flattenTreePostOrder (stepCalcNode u f).1,
        s.id = e.nodeId → s.calculatedValue.isSome := by
  induction u using tree_induction with
  | h d cs ih =>
      intro f e he s hs hid
      by_cases h1 : d.calculatedValue.isSome
      · rw [stepCalcNode_skip h1] at he
        cases he
      · by_cases h2 : d.type = NodeType.terminal
        · rw [stepCalcNode_terminal h1 h2] at he
          cases he
        · have hU2 : ((flattenList cs).map TreeNode.id ++ [d.id]).Nodup := by
            have h4 : flattenTreePostOrder (node d cs)
                = flattenList cs ++ [node d cs] := by
              rw [flattenTreePostOrder_def]
              rfl
            rw [h4, List.map_append] at hU
            exact hU
          have hUcs : ((flattenList cs).map TreeNode.id).Nodup :=
            hU2.of_append_left
          have hdisj := List.disjoint_of_nodup_append hU2
          by_cases h3 : (((stepCalcList cs f).1.all
              fun c => c.calculatedValue.isSome) && !(stepCalcList cs f).2.1) = true
          · rw [stepCalcNode_solve h1 h2 h3] at he hs
            dsimp only at he hs
            rw [flattenTreePostOrder_def] at hs
            simp only [TreeNode.children_node] at hs
            rcases List.mem_append.mp hs with hs | hs
            · rcases List.mem_append.mp he with he | he
              · exact stepCalc_new_cv_list cs ih hUcs f e he s hs hid
              · exfalso
                have hEid : e.nodeId = d.id := by
                  have heq : e = ⟨d.id, d.label, d.type,
                      calculateNodeEMV (node d (stepCalcList cs f).1)⟩ := by
                    simpa using he
                  rw [heq]
                have h4 : s.id ∈ (flattenList cs).map TreeNode.id := by
                  rw [← ids_stepList cs f]
                  exact List.mem_map_of_mem _ hs
                rw [hid, hEid] at h4
                exact hdisj h4 (by simp)
            · have hseq : s = node
                  { d with
                      calculatedValue :=
                        some (calculateNodeEMV (node d (stepCalcList cs f).1)) }
                  (stepCalcList cs f).1 := by
                simpa using hs
              rw [hseq]
              simp
          · rw [stepCalcNode_noSolve h1 h2 h3] at he hs
            dsimp only at he hs
            rw [flattenTreePostOrder_def] at hs
            simp only [TreeNode.children_node] at hs
            rcases List.mem_append.mp hs with hs | hs
            · exact stepCalc_new_cv_list cs ih hUcs f e he s hs hid
            · exfalso
              have hseq : s = node d (stepCalcList cs f).1 := by
                simpa using hs
              have h4 : e.nodeId ∈ (flattenList cs).map TreeNode.id :=
                stepCalc_log_id_mem_list cs
                  (fun c' _ => stepCalc_log_id_mem c') f e he
              rw [← hid, hseq] at h4
              simp only [TreeNode.id_node] at h4
              exact hdisj h4 (by simp)

theorem stepCalc_nus_list (cs : List TreeNode)
    (ih : ∀ c ∈ cs, ((flattenTreePostOrder c).map TreeNode.id).Nodup →
      ∀ f : Bool, ∀ e ∈ (stepCalcNode c f).2.2,
        ∀ n ∈ flattenTreePostOrder c, n.calculatedValue.isSome →
          e.nodeId ∉ (strictSubnodes n).map TreeNode.id)
    (hU : ((flattenList cs).map TreeNode.id).Nodup) :
    ∀ f : Bool, ∀ e ∈ (stepCalcList cs f).2.2,
      ∀ n ∈ flattenList cs, n.calculatedValue.isSome →
        e.nodeId ∉ (strictSubnodes n).map TreeNode.id := by
  induction cs with
  | nil => intro f e he; cases he
  | cons c cs0 ihl =>
      intro f e he n hn hcv hmem
      rw [stepCalcList_cons] at he
      dsimp only at he
      rw [flattenList_cons] at hn
      rw [flattenList_cons, List.map_append] at hU
      have hUc : ((flattenTreePostOrder c).map TreeNode.id).Nodup :=
        hU.of_append_left
      have hUcs0 : ((flattenList cs0).map TreeNode.id).Nodup :=
        hU.of_append_right
      have hdisj := List.disjoint_of_nodup_append hU
      rcases List.mem_append.mp he with he | he
      · rcases List.mem_append.mp hn with hn | hn
        · exact ih c (by simp) hUc f e he n hn hcv hmem
        · have h1 : e.nodeId ∈ (flattenTreePostOrder c).map TreeNode.id :=
            stepCalc_log_id_mem c f e he
          exact hdisj h1 (subIds_subset hn _ hmem)
      · rcases List.mem_append.mp hn with hn | hn
        · have h1 : e.nodeId ∈ (flattenList cs0).map TreeNode.id :=
            stepCalc_log_id_mem_list cs0
              (fun c' _ => stepCalc_log_id_mem c') _ e he
          have h2 : e.nodeId ∈ (flattenTreePostOrder c).map TreeNode.id := by
            obtain ⟨x, hx, hxi⟩ := List.mem_map.mp hmem
            exact List.mem_map.mpr
              ⟨x, flatten_trans (strictSubnodes_subset_flatten x hx) hn, hxi⟩
          exact hdisj h2 h1
        · exact ihl (fun c' hc' => ih c' (by simp [hc'])) hUcs0 _ e he n hn hcv hmem

/-- In a tree with unique ids, a stepping pass never logs a node sitting
strictly below a node that already carries a `calculatedValue`: such
subtrees are returned unchanged without being revisited. -/
theorem stepCalc_nus (u : TreeNode)
    (hU : ((flattenTreePostOrder u).map TreeNode.id).Nodup) :
    ∀ f : Bool, ∀ e ∈ (stepCalcNode u f).2.2,
      ∀ n ∈ flattenTreePostOrder u, n.calculatedValue.isSome →
        e.nodeId ∉ (strictSubnodes n).map TreeNode.id := by
  induction u using tree_induction with
  | h d cs ih =>
      intro f e he n hn hcv hmem
      by_cases h1 : d.calculatedValue.isSome
      · rw [stepCalcNode_skip h1] at he
        cases he
      · by_cases h2 : d.type = NodeType.terminal
        · rw [stepCalcNode_terminal h1 h2] at he
          cases he
        · have h4 : flattenTreePostOrder (node d cs)
              = flattenList cs ++ [node d cs] := by
            rw [flattenTreePostOrder_def]
            rfl
          have hU2 : ((flattenList cs).map TreeNode.id ++ [d.id]).Nodup := by
            rw [h4, List.map_append] at hU
            exact hU
          have hUcs : ((flattenList cs).map TreeNode.id).Nodup :=
            hU2.of_append_left
          have hdisj := List.disjoint_of_nodup_append hU2
          rw [h4] at hn
          by_cases h3 : (((stepCalcList cs f).1.all
              fun c => c.calculatedValue.isSome) && !(stepCalcList cs f).2.1) = true
          · rw [stepCalcNode_solve h1 h2 h3] at he
            dsimp only at he
            rcases List.mem_append.mp hn with hn | hn
            · rcases List.mem_append.mp he with he | he
              · exact stepCalc_nus_list cs ih hUcs f e he n hn hcv hmem
              · have hEid : e.nodeId = d.id := by
                  have heq : e = ⟨d.id, d.label, d.type,
                      calculateNodeEMV (node d (stepCalcList cs f).1)⟩ := by
                    simpa using he
                  rw [heq]
                have h5 : e.nodeId ∈ (flattenList cs).map TreeNode.id :=
                  subIds_subset hn _ hmem
                rw [hEid] at h5
                exact hdisj h5 (by simp)
            · have hne : n = node d cs := by simpa using hn
              rw [hne] at hcv
              exact absurd (by simpa using hcv) h1
          · rw [stepCalcNode_noSolve h1 h2 h3] at he
            dsimp only at he
            rcases List.mem_append.mp hn with hn | hn
            · exact stepCalc_nus_list cs ih hUcs f e he n hn hcv hmem
            · have hne : n = node d cs := by simpa using hn
              rw [hne] at hcv
              exact absurd (by simpa using hcv) h1

theorem stepCalc_CalcClosed_list (cs : List TreeNode)
    (ih : ∀ c ∈ cs, NoTerminalChildren c → CalcClosed c →
      ∀ f : Bool, CalcClosed (stepCalcNode c f).1)
    (hN : ∀ c ∈ cs, NoTerminalChildren c) (hC : ∀ c ∈ cs, CalcClosed c) :
    ∀ f : Bool, ∀ n ∈ flattenList (stepCalcList cs f).1,
      n.calculatedValue.isSome → ∀ x ∈ strictSubnodes n,
        x.calculatedValue.isSome := by
  induction cs with
  | nil => intro f n hn; cases hn
  | cons c cs0 ihl =>
      intro f n hn
      rw [stepCalcList_cons] at hn
      dsimp only at hn
      rw [flattenList_cons] at hn
      rcases List.mem_append.mp hn with hn | hn
      · exact ih c (by simp) (hN c (by simp)) (hC c (by simp)) f n hn
      · exact ihl (fun c' hc' => ih c' (by simp [hc']))
          (fun c' hc' => hN c' (by simp [hc']))
          (fun c' hc' => hC c' (by simp [hc'])) _ n hn

/-- A stepping pass preserves downward closure of `calculatedValue` (on
trees whose Terminal nodes are childless). -/
theorem stepCalc_CalcClosed (u : TreeNode) (hN : NoTerminalChildren u)
    (hC : CalcClosed u) :
    ∀ f : Bool, CalcClosed (stepCalcNode u f).1 := by
  induction u using tree_induction with
  | h d cs ih =>
      intro f
      have hlist := stepCalc_CalcClosed_list cs ih
        (fun c hc => noTerminalChildren_child hN (by simpa using hc))
        (fun c hc => forall_flatten_child (t := node d cs) (by simpa using hc) hC)
      by_cases h1 : d.calculatedValue.isSome
      · rw [stepCalcNode_skip h1]
        exact hC
      · by_cases h2 : d.type = NodeType.terminal
        · have hcs : cs = [] := hN (node d cs) (self_mem_flatten _) h2
          subst hcs
          rw [stepCalcNode_terminal h1 h2]
          intro n hn hcv x hx
          have hfl : flattenTreePostOrder
              (node { d with calculatedValue := d.value } [])
              = [node { d with calculatedValue := d.value } []] := rfl
          rw [hfl] at hn
          have hne : n = node { d with calculatedValue := d.value } [] := by
            simpa using hn
          rw [hne] at hx
          rw [show strictSubnodes (node { d with calculatedValue := d.value } [])
            = [] from rfl] at hx
          cases hx
        · by_cases h3 : (((stepCalcList cs f).1.all
              fun c => c.calculatedValue.isSome) && !(stepCalcList cs f).2.1) = true
          · rw [stepCalcNode_solve h1 h2 h3]
            intro n hn hcv x hx
            rw [flattenTreePostOrder_def] at hn
            simp only [TreeNode.children_node] at hn
            rcases List.mem_append.mp hn with hn | hn
            · exact hlist f n hn hcv x hx
            · have hne : n = node
                  { d with
                      calculatedValue :=
                        some (calculateNodeEMV (node d (stepCalcList cs f).1)) }
                  (stepCalcList cs f).1 := by
                simpa using hn
              rw [hne, strictSubnodes_eq] at hx
              simp only [TreeNode.children_node] at hx
              have hall : ∀ c' ∈ (stepCalcList cs f).1,
                  c'.calculatedValue.isSome := by
                have h5 := h3
                simp only [Bool.and_eq_true, List.all_eq_true] at h5
                exact h5.1
              obtain ⟨c', hc', hxc'⟩ := mem_flattenList.mp hx
              rw [flattenTreePostOrder_def] at hxc'
              rcases List.mem_append.mp hxc' with hxc' | hxc'
              · refine hlist f c' ?_ (hall c' hc') x ?_
                · exact mem_flattenList.mpr ⟨c', hc', self_mem_flatten c'⟩
                · rw [strictSubnodes_eq]
                  exact hxc'
              · have hxe : x = c' := by simpa using hxc'
                rw [hxe]
                exact hall c' hc'
          · rw [stepCalcNode_noSolve h1 h2 h3]
            intro n hn hcv x hx
            rw [flattenTreePostOrder_def] at hn
            simp only [TreeNode.children_node] at hn
            rcases List.mem_append.mp hn with hn | hn
            · exact hlist f n hn hcv x hx
            · have hne : n = node d (stepCalcList cs f).1 := by
                simpa using hn
              rw [hne] at hcv
              exact absurd (by simpa using hcv) h1

theorem mark_flatten_eraseOpt (u : TreeNode) :
    (flattenTreePostOrder (markOptimalPath u)).map eraseOpt
      = (flattenTreePostOrder u).map eraseOpt := by
  have h := congrArg flattenTreePostOrder (eraseOpt_mark u)
  rw [flatten_eraseOpt, flatten_eraseOpt] at h
  exact h

/-- Every node of a marked tree corresponds to a node of the unmarked tree
with the same id and `calculatedValue` and the same (id, `calculatedValue`)
sequence of strict descendants. -/
theorem mark_node_transport {u s : TreeNode}
    (hs : s ∈ flattenTreePostOrder (markOptimalPath u)) :
    ∃ n ∈ flattenTreePostOrder u, n.id = s.id
      ∧ n.calculatedValue = s.calculatedValue
      ∧ (strictSubnodes n).map (fun x => (x.id, x.calculatedValue))
        = (strictSubnodes s).map (fun x => (x.id, x.calculatedValue)) := by
  have h1 : eraseOpt s ∈ (flattenTreePostOrder u).map eraseOpt := by
    rw [← mark_flatten_eraseOpt]
    exact List.mem_map_of_mem _ hs
  obtain ⟨n, hn, hne⟩ := List.mem_map.mp h1
  refine ⟨n, hn, ?_, ?_, ?_⟩
  · rw [← eraseOpt_id n, hne, eraseOpt_id]
  · rw [← eraseOpt_cv n, hne, eraseOpt_cv]
  · have h2 := congrArg strictSubnodes hne
    rw [strictSubnodes_map eraseOpt_children,
      strictSubnodes_map eraseOpt_children] at h2
    have h3 := congrArg
      (List.map (fun x : TreeNode => (x.id, x.calculatedValue))) h2
    rw [List.map_map, List.map_map] at h3
    have h4 : ∀ (l : List TreeNode),
        l.map ((fun x : TreeNode => (x.id, x.calculatedValue)) ∘ eraseOpt)
          = l.map (fun x : TreeNode => (x.id, x.calculatedValue)) :=
      fun l => List.map_congr_left (fun x _ => by
        show ((eraseOpt x).id, (eraseOpt x).calculatedValue)
          = (x.id, x.calculatedValue)
        rw [eraseOpt_id, eraseOpt_cv])
    rw [h4, h4] at h3
    exact h3

theorem mark_CalcClosed {u : TreeNode} (h : CalcClosed u) :
    CalcClosed (markOptimalPath u) := by
  intro s hs hcv x' hx'
  obtain ⟨n, hn, _, hcveq, hsub⟩ := mark_node_transport hs
  have hncv : n.calculatedValue.isSome := by
    rw [hcveq]
    exact hcv
  have hx'p : (x'.id, x'.calculatedValue)
      ∈ (strictSubnodes n).map (fun x => (x.id, x.calculatedValue)) := by
    rw [hsub]
    exact List.mem_map_of_mem _ hx'
  obtain ⟨x, hx, hxe⟩ := List.mem_map.mp hx'p
  have hcvx : x.calculatedValue = x'.calculatedValue := congrArg Prod.snd hxe
  rw [← hcvx]
  exact h n hn hncv x hx

theorem mark_LoggedHaveCV {u : TreeNode} {l : List CalculationLog}
    (h : LoggedHaveCV u l) : LoggedHaveCV (markOptimalPath u) l := by
  intro e he s hs hid
  obtain ⟨n, hn, hnid, hcveq, _⟩ := mark_node_transport hs
  rw [← hcveq]
  exact h e he n hn (hnid.trans hid)

theorem goodLog_short {w : TreeNode} {l : List CalculationLog}
    (h : l.length ≤ 1) : GoodLog w l := by
  cases l with
  | nil => exact List.Pairwise.nil
  | cons a l2 =>
      cases l2 with
      | nil => exact List.pairwise_singleton _ _
      | cons b l3 =>
          exfalso
          simp only [List.length_cons] at h
          omega

/-- With unique ids, the post-order flattening's id sequence never lists a
node before one of its strict descendants. -/
theorem pairwise_not_SDI (t : TreeNode) (hU : UniqueIds t) :
    ((flattenTreePostOrder t).map TreeNode.id).Pairwise
      (fun i j => ¬ StrictDescId t j i) := by
  rw [List.pairwise_map]
  exact List.Pairwise.imp_of_mem
    (fun hm hn h hSDI => h ((SDI_iff hU hm hn).mp hSDI))
    (pairwise_not_strictSub t hU)

/-- Any log whose id sequence is a subsequence of the post-order
flattening's id sequence is post-ordered. -/
theorem goodLog_of_sublist {t : TreeNode} (hU : UniqueIds t)
    {l : List CalculationLog}
    (hs : (l.map CalculationLog.nodeId).Sublist
      ((flattenTreePostOrder t).map TreeNode.id)) :
    GoodLog t l := by
  have h1 := List.Pairwise.sublist hs (pairwise_not_SDI t hU)
  rw [List.pairwise_map] at h1
  exact h1

theorem autoSolveLogs_ids (w : TreeNode) :
    (autoSolveLogs w).map CalculationLog.nodeId
      = ((flattenTreePostOrder w).filter awaitingEval).map TreeNode.id := by
  have h := congrArg (List.map Prod.fst) (autoSolveLogs_proj w)
  rw [List.map_map, List.map_map] at h
  have h1 : ∀ (l : List CalculationLog),
      l.map (Prod.fst ∘ fun e : CalculationLog => (e.nodeId, e.nodeType))
        = l.map CalculationLog.nodeId :=
    fun l => List.map_congr_left (fun e _ => rfl)
  have h2 : ∀ (l : List TreeNode),
      l.map (Prod.fst ∘ fun n : TreeNode => (n.id, n.type))
        = l.map TreeNode.id :=
    fun l => List.map_congr_left (fun n _ => rfl)
  rw [h1, h2] at h
  exact h

theorem clearAuto_flatten_ids (t : TreeNode) :
    (flattenTreePostOrder (clearValuesAuto t)).map TreeNode.id
      = (flattenTreePostOrder t).map TreeNode.id := by
  rw [flatten_map clearValuesAuto clearValuesAuto_children, List.map_map]
  exact List.map_congr_left (fun s _ => clearValuesAuto_id s)

theorem stepInv_init (t : TreeNode) : StepInv t (resetState t) := by
  refine ⟨clearReset_idem t, ?_, ?_, List.Pairwise.nil⟩
  · intro n hn hcv x hx
    exfalso
    have hnone : n.calculatedValue = none := by
      have hn2 : n ∈ flattenTreePostOrder (clearValuesReset t) := hn
      rw [flatten_clearReset] at hn2
      obtain ⟨m, hm, hme⟩ := List.mem_map.mp hn2
      rw [← hme]
      exact clearValuesReset_cv m
    rw [hnone] at hcv
    cases hcv
  · intro e he
    cases he

theorem stepInv_step {t : TreeNode} (hU : UniqueIds t)
    (hN : NoTerminalChildren t) {s : TreeNode × List CalculationLog}
    (h : StepInv t s) : StepInv t (requestStepModel s) := by
  obtain ⟨u, l⟩ := s
  obtain ⟨hSh, hCC, hLg, hGL⟩ := h
  have hUu : UniqueIds u := shapeEq_uniqueIds hSh hU
  have hNu : NoTerminalChildren u := shapeEq_NTC hSh hN
  have hSh' : ShapeEq t (stepCalcNode u false).1 :=
    (clearReset_step u false).trans hSh
  have hCC' : CalcClosed (stepCalcNode u false).1 :=
    stepCalc_CalcClosed u hNu hCC false
  have hLg' : LoggedHaveCV (stepCalcNode u false).1
      (l ++ (stepCalcNode u false).2.2) := by
    intro e he n' hn' hid
    rcases List.mem_append.mp he with he | he
    · by_contra hnone'
      have hnone : n'.calculatedValue = none :=
        Option.not_isSome_iff_eq_none.mp hnone'
      obtain ⟨n, hn, hnid, hncv⟩ := stepCalc_cv_back u false n' hn' hnone
      have hsome := hLg e he n hn (hnid.trans hid)
      rw [hncv] at hsome
      cases hsome
    · exact stepCalc_new_cv u hUu false e he n' hn' hid
  have hGL' : GoodLog t (l ++ (stepCalcNode u false).2.2) := by
    show List.Pairwise _ (l ++ (stepCalcNode u false).2.2)
    rw [List.pairwise_append]
    refine ⟨hGL, goodLog_short ?_, ?_⟩
    · rw [stepCalc_log_len u]
      split_ifs <;> decide
    · intro a ha b hb hSDI
      obtain ⟨m, hm, hmid, hmmem⟩ := shapeEq_SDI hSh hSDI
      have hmcv : m.calculatedValue.isSome := hLg a ha m hm hmid
      exact stepCalc_nus u hUu false b hb m hm hmcv hmmem
  have hr : requestStepModel (u, l)
      = (if (stepCalcNode u false).2.1 = true then (stepCalcNode u false).1
         else markOptimalPath (stepCalcNode u false).1,
         l ++ (stepCalcNode u false).2.2) := rfl
  rw [hr]
  by_cases hf : (stepCalcNode u false).2.1 = true
  · rw [if_pos hf]
    exact ⟨hSh', hCC', hLg', hGL'⟩
  · rw [if_neg hf]
    exact ⟨(clearReset_mark _).trans hSh', mark_CalcClosed hCC',
      mark_LoggedHaveCV hLg', hGL'⟩

theorem stepInv_iter {t : TreeNode} (hU : UniqueIds t)
    (hN : NoTerminalChildren t) :
    ∀ (k : ℕ) (s : TreeNode × List CalculationLog),
      StepInv t s → StepInv t (stepIter k s) := by
  intro k
  induction k with
  | zero => intro s h; exact h
  | succ k ih =>
      intro s h
      rw [stepIter]
      exact ih _ (stepInv_step hU hN h)

/-- From any state satisfying the invariant, continuing with the full
auto-replay keeps the combined log post-ordered. -/
theorem stepInv_auto {t : TreeNode} (hU : UniqueIds t)
    {s : TreeNode × List CalculationLog} (h : StepInv t s) :
    GoodLog t (s.2 ++ autoSolveLogs s.1) := by
  obtain ⟨u, l⟩ := s
  obtain ⟨hSh, hCC, hLg, hGL⟩ := h
  have hUu : UniqueIds u := shapeEq_uniqueIds hSh hU
  show List.Pairwise _ (l ++ autoSolveLogs u)
  rw [List.pairwise_append]
  refine ⟨hGL, ?_, ?_⟩
  · have hsub : ((autoSolveLogs u).map CalculationLog.nodeId).Sublist
        ((flattenTreePostOrder t).map TreeNode.id) := by
      rw [autoSolveLogs_ids, ← shapeEq_ids hSh]
      exact List.Sublist.map _ (List.filter_sublist _)
    exact goodLog_of_sublist hU hsub
  · intro a ha b hb hSDI
    obtain ⟨m, hm, hmid, hmmem⟩ := shapeEq_SDI hSh hSDI
    have hmcv : m.calculatedValue.isSome := hLg a ha m hm hmid
    have hbid : b.nodeId
        ∈ ((flattenTreePostOrder u).filter awaitingEval).map TreeNode.id := by
      rw [← autoSolveLogs_ids]
      exact List.mem_map_of_mem _ hb
    obtain ⟨x, hx, hxid⟩ := List.mem_map.mp hbid
    have hxmem : x ∈ flattenTreePostOrder u := List.mem_of_mem_filter hx
    have hxcv : x.calculatedValue = none := by
      have hA := List.of_mem_filter hx
      simp only [awaitingEval, Bool.and_eq_true] at hA
      exact Option.isNone_iff_eq_none.mp hA.2
    obtain ⟨y, hy, hyid⟩ := List.mem_map.mp hmmem
    have hymem : y ∈ flattenTreePostOrder u :=
      flatten_trans (strictSubnodes_subset_flatten y hy) hm
    have hycv : y.calculatedValue.isSome := hCC m hm hmcv y hy
    have hxy : y = x := id_inj hUu hymem hxmem (hyid.trans hxid.symm)
    rw [hxy, hxcv] at hycv
    cases hycv

/-- C6: in every evaluation run the log sequence is post-ordered — every
logged internal node's entry appears strictly after the entries of all of
its logged descendants (`GoodLog`: no later entry names a strict descendant
of an earlier entry's node).  This holds (1) for `requestAuto` entered from
Edit or Solved (full reset and replay), (2) for the accumulated log after
any number `k` of `requestStep` calls following a reset, and (3) for the
combined log when such a stepping run is finished off by `requestAuto`.
Hypotheses: ids are unique and Terminal nodes are childless (spec §3
data-model invariants). -/
theorem C6_postorder_logs (t : TreeNode) (hU : UniqueIds t)
    (hN : NoTerminalChildren t) :
    (∀ (mode : CalcMode) (logs0 : List CalculationLog),
        mode = CalcMode.edit ∨ mode = CalcMode.auto →
        GoodLog t (requestAutoModel mode t logs0).2.1)
    ∧ (∀ k : ℕ, GoodLog t (stepIter k (resetState t)).2)
    ∧ (∀ k : ℕ, GoodLog t (requestAutoModel CalcMode.step
        (stepIter k (resetState t)).1 (stepIter k (resetState t)).2).2.1) := by
  refine ⟨?_, ?_, ?_⟩
  · intro mode logs0 hmode
    have hprep : autoPrepare mode t logs0 = (clearValuesAuto t, []) := by
      rw [autoPrepare, if_pos hmode]
    have hlog : (requestAutoModel mode t logs0).2.1
        = autoSolveLogs (clearValuesAuto t) := by
      show (autoPrepare mode t logs0).2
          ++ (autoSolveNode (autoPrepare mode t logs0).1).2.1 = _
      rw [hprep]
      rfl
    rw [hlog]
    have hsub : ((autoSolveLogs (clearValuesAuto t)).map
          CalculationLog.nodeId).Sublist
        ((flattenTreePostOrder t).map TreeNode.id) := by
      rw [autoSolveLogs_ids, ← clearAuto_flatten_ids t]
      exact List.Sublist.map _ (List.filter_sublist _)
    exact goodLog_of_sublist hU hsub
  · intro k
    exact (stepInv_iter hU hN k _ (stepInv_init t)).2.2.2
  · intro k
    have hinv := stepInv_iter hU hN k _ (stepInv_init t)
    have hgl := stepInv_auto hU hinv
    have hprep : autoPrepare CalcMode.step (stepIter k (resetState t)).1
          (stepIter k (resetState t)).2
        = ((stepIter k (resetState t)).1, (stepIter k (resetState t)).2) := by
      rw [autoPrepare, if_neg (by decide)]
    have hlog : (requestAutoModel CalcMode.step (stepIter k (resetState t)).1
          (stepIter k (resetState t)).2).2.1
        = (stepIter k (resetState t)).2
          ++ autoSolveLogs (stepIter k (resetState t)).1 := by
      show (autoPrepare CalcMode.step _ _).2
          ++ (autoSolveNode (autoPrepare CalcMode.step _ _).1).2.1 = _
      rw [hprep]
      rfl
    rw [hlog]
    exact hgl

/-- Witness for `C6_postorder_logs`: the hypotheses hold on the concrete
tree `exC6` and the theorem applies to it. -/
theorem C6_postorder_logs_witness :
    (UniqueIds exC6 ∧ NoTerminalChildren exC6)
    ∧ ((∀ (mode : CalcMode) (logs0 : List CalculationLog),
          mode = CalcMode.edit ∨ mode = CalcMode.auto →
          GoodLog exC6 (requestAutoModel mode exC6 logs0).2.1)
      ∧ (∀ k : ℕ, GoodLog exC6 (stepIter k (resetState exC6)).2)
      ∧ (∀ k : ℕ, GoodLog exC6 (requestAutoModel CalcMode.step
          (stepIter k (resetState exC6)).1
          (stepIter k (resetState exC6)).2).2.1)) := by
  have h1 : UniqueIds exC6 := by
    show ((flattenTreePostOrder exC6).map TreeNode.id).Nodup
    decide
  have h2 : NoTerminalChildren exC6 := by
    intro s hs
    have hfl : flattenTreePostOrder exC6
        = [node (mkData "l6" NodeType.terminal "leaf" (some 3) none none none)
            [], exC6] := rfl
    rw [hfl] at hs
    simp only [List.mem_cons, List.not_mem_nil, or_false] at hs
    rcases hs with rfl | rfl
    · intro _
      rfl
    · intro hterm
      exact absurd hterm (by decide)
  exact ⟨⟨h1, h2⟩, C6_postorder_logs exC6 h1 h2⟩

end DTV

